import Mathlib

/-!
Verification of the backend-abstraction and concurrent aggregation layer of
the npm-console repository (Go). The Go services in internal/services
(cache.go, packages.go, projects.go, the config service) and the manager
factory are shallowly embedded as pure Lean functions.

Modelling conventions:
- A backend (core.PackageManager) is a record of resolved call outcomes; the
  cancellable context argument is dropped, since every claim is about the
  value a call settles to.
- The factory (managers.ManagerFactory) is a list of registered backends in
  an arbitrary order; Go map iteration order is modelled by quantifying over
  all list orders.  GetAvailableManagers filters by the availability probe.
- The goroutine fan-out with a mutex-guarded accumulator is modelled as a
  left fold appending each task contribution; arrival order is again an
  arbitrary list order.
- Go errors are an explicit inductive type.  Err.managerNotFound models the
  factory message (package manager not found), Err.opFailed models the
  per-backend wrapping via fmt.Errorf with percent-w, and Err.combined models
  the combined fmt.Errorf over a collected error slice.
- Machine integers (int64, int) are modelled as Int; the claims below only
  compare and count them, never overflow.
- net/url Parse and the filesystem helpers of pkg/utils are external
  collaborators; they are passed in as function parameters (urlParse, FS).
- String order in Go sort.Slice comparisons is bytewise; it is modelled as
  the lexicographic order on the underlying character list, which agrees
  with UTF-8 byte order.
-/

/-- BackendErr models an error value produced by a backend call: either the
sentinel core.ErrProjectNotFound, or any other backend failure, abstracted
by a numeric code. -/
inductive BackendErr where
  | projectNotFound
  | failure (code : Nat)
deriving DecidableEq

/-- Err models the error values the services construct or propagate. -/
inductive Err where
  | backend (e : BackendErr)
  | managerNotFound (name : String)
  | managerNotAvailable (manager op : String)
  | validation (field value message : String)
  | opFailed (context : String) (cause : BackendErr)
  | combined (message : String) (failures : List (String × BackendErr))
  | internal (message : String)
deriving DecidableEq

/-- CacheInfo mirrors core.CacheInfo. -/
structure CacheInfo where
  Manager : String
  Path : String
  Size : Int
  FileCount : Int
  LastUpdated : Nat
deriving DecidableEq

/-- Package mirrors core.Package. -/
structure Package where
  Name : String
  Version : String
  Description : String
  Manager : String
  IsGlobal : Bool
  Path : String
  Size : Int
  Dependencies : List (String × String)
  DevDependencies : List (String × String)
deriving DecidableEq

/-- Config mirrors core.Config. -/
structure Config where
  Manager : String
  Registry : String
  Proxy : String
  Settings : List (String × String)
deriving DecidableEq

/-- Project mirrors core.Project. -/
structure Project where
  Name : String
  Path : String
  Managers : List String
  PackageFile : String
  LockFile : String
  NodeModules : String
deriving DecidableEq

/-- DependencyTree mirrors core.DependencyTree (a recursive record in Go). -/
inductive DependencyTree where
  | mk (Name : String) (Version : String) (DevDependency : Bool) (Depth : Int)
      (Dependencies : List DependencyTree)

def DependencyTree.Name : DependencyTree → String
  | .mk n _ _ _ _ => n

def DependencyTree.Version : DependencyTree → String
  | .mk _ v _ _ _ => v

def DependencyTree.DevDependency : DependencyTree → Bool
  | .mk _ _ d _ _ => d

def DependencyTree.Depth : DependencyTree → Int
  | .mk _ _ _ d _ => d

def DependencyTree.Dependencies : DependencyTree → List DependencyTree
  | .mk _ _ _ _ ds => ds

/-- PackageJsonInfo mirrors services.PackageJsonInfo; the JSON maps become
association lists in an arbitrary iteration order. -/
structure PackageJsonInfo where
  Name : String
  Version : String
  Description : String
  Dependencies : List (String × String)
  DevDependencies : List (String × String)
  Scripts : List (String × String)

/-- Backend models one core.PackageManager instance by the outcomes of its
calls.  IsAvailable models the availability probe, Option BackendErr models
an error-only result (none is success). -/
structure Backend where
  Name : String
  IsAvailable : Bool
  GetCacheInfo : Except BackendErr CacheInfo
  ClearCache : Option BackendErr
  GetInstalledPackages : String → Except BackendErr (List Package)
  GetGlobalPackages : Except BackendErr (List Package)
  GetConfig : Except BackendErr Config
  SetRegistry : String → Option BackendErr
  SetProxy : String → Option BackendErr
  GetProjects : String → Except BackendErr (List Project)

/-- GetManager mirrors ManagerFactory.GetManager: map lookup by name, with
the not-found error carrying the requested name. -/
def ManagerFactory.GetManager (factory : List Backend) (name : String) :
    Except Err Backend :=
  match factory.find? (fun b => b.Name == name) with
  | some b => .ok b
  | none => .error (.managerNotFound name)

/-- GetAvailableManagers mirrors ManagerFactory.GetAvailableManagers: the
registered backends whose availability probe succeeds. -/
def ManagerFactory.GetAvailableManagers (factory : List Backend) : List Backend :=
  factory.filter (fun b => b.IsAvailable)

/-- GetAvailableManagerNames mirrors ManagerFactory.GetAvailableManagerNames. -/
def ManagerFactory.GetAvailableManagerNames (factory : List Backend) : List String :=
  (ManagerFactory.GetAvailableManagers factory).map (fun b => b.Name)

/-- collectStep models the body of one fan-out goroutine: it appends the
contribution of backend b to the mutex-guarded accumulators (first the
gathered records, second the collected failures). -/
def collectStep {α β : Type} (f : Backend → List α) (g : Backend → List β)
    (acc : List α × List β) (b : Backend) : List α × List β :=
  (acc.1 ++ f b, acc.2 ++ g b)

/-- sortOn models sort.Slice with a less-than comparison on a string key
(compared bytewise in Go, lexicographically on characters here). -/
def sortOn {α : Type} (key : α → List Char) (l : List α) : List α :=
  List.insertionSort (fun a b => key a ≤ key b) l

/-- okList projects the list out of a service result that pairs the returned
value with the logged (not returned) error slice. -/
def okList {α β : Type} (r : Except Err (List α) × β) : List α :=
  match r.1 with
  | .ok l => l
  | .error _ => []

namespace CacheService

/-- cacheFetch is the record contributed by one GetCacheInfo goroutine. -/
def cacheFetch (b : Backend) : List CacheInfo :=
  match b.GetCacheInfo with
  | .ok info => [info]
  | .error _ => []

/-- cacheErrs is the error contributed by one GetCacheInfo goroutine. -/
def cacheErrs (b : Backend) : List Err :=
  match b.GetCacheInfo with
  | .ok _ => []
  | .error e => [.opFailed ("failed to get cache info for " ++ b.Name) e]

/-- GetAllCacheInfo mirrors CacheService.GetAllCacheInfo: concurrent fan-out
over available managers, sort by manager name, errors logged only (the Go
function always returns a nil error). -/
def GetAllCacheInfo (factory : List Backend) :
    Except Err (List CacheInfo) × List Err :=
  let acc := (ManagerFactory.GetAvailableManagers factory).foldl
    (collectStep cacheFetch cacheErrs) ([], [])
  (.ok (sortOn (fun i => i.Manager.data) acc.1), acc.2)

/-- GetCacheInfo mirrors CacheService.GetCacheInfo (single-backend path). -/
def GetCacheInfo (factory : List Backend) (managerName : String) :
    Except Err CacheInfo :=
  match ManagerFactory.GetManager factory managerName with
  | .error e => .error e
  | .ok m =>
    if m.IsAvailable then m.GetCacheInfo.mapError Err.backend
    else .error (.managerNotAvailable managerName "get cache info")

/-- clearSucceeded names backend b when its ClearCache call succeeded; the
cleared caches of those backends stay cleared (there is no rollback path in
the Go code). -/
def clearSucceeded (b : Backend) : List String :=
  match b.ClearCache with
  | none => [b.Name]
  | some _ => []

/-- clearFailed is the failure contributed by one ClearCache goroutine. -/
def clearFailed (b : Backend) : List (String × BackendErr) :=
  match b.ClearCache with
  | none => []
  | some e => [(b.Name, e)]

/-- ClearAllCaches mirrors CacheService.ClearAllCaches.  The result is the
returned error together with the names cleared (state kept) and the
collected failures. -/
def ClearAllCaches (factory : List Backend) :
    Option Err × List String × List (String × BackendErr) :=
  let acc := (ManagerFactory.GetAvailableManagers factory).foldl
    (collectStep clearSucceeded clearFailed) ([], [])
  (if acc.2 = [] then none
   else some (.combined "failed to clear some caches" acc.2), acc.1, acc.2)

/-- CacheManagerStats mirrors services.CacheManagerStats. -/
structure CacheManagerStats where
  Size : Int
  FileCount : Int
  Path : String
  LastUpdated : Nat
deriving DecidableEq

/-- CacheStats mirrors services.CacheStats; the Managers map is an
association list written in insertion order. -/
structure CacheStats where
  TotalSize : Int
  TotalFiles : Int
  ManagerCount : Nat
  LargestCache : CacheManagerStats
  LargestCacheManager : String
  Managers : List (String × CacheManagerStats)
deriving DecidableEq

/-- statsOf builds the CacheManagerStats literal the loop body constructs. -/
def statsOf (info : CacheInfo) : CacheManagerStats :=
  ⟨info.Size, info.FileCount, info.Path, info.LastUpdated⟩

/-- mapSet models Go map assignment on the association list. -/
def mapSet (m : List (String × CacheManagerStats)) (k : String)
    (v : CacheManagerStats) : List (String × CacheManagerStats) :=
  if m.any (fun kv => kv.1 == k) then
    m.map (fun kv => if kv.1 == k then (k, v) else kv)
  else m ++ [(k, v)]

/-- cacheStatsStep is one iteration of the GetCacheStats loop: accumulate
totals, store the per-manager entry, and update the largest cache on a
strict size increase. -/
def cacheStatsStep (stats : CacheStats) (info : CacheInfo) : CacheStats :=
  let stats := { stats with
    TotalSize := stats.TotalSize + info.Size,
    TotalFiles := stats.TotalFiles + info.FileCount,
    ManagerCount := stats.ManagerCount + 1,
    Managers := mapSet stats.Managers info.Manager (statsOf info) }
  if info.Size > stats.LargestCache.Size then
    { stats with LargestCache := statsOf info, LargestCacheManager := info.Manager }
  else stats

/-- initCacheStats is the zero-valued CacheStats literal the Go code starts
from (zero sizes, empty manager name). -/
def initCacheStats : CacheStats := ⟨0, 0, 0, ⟨0, 0, "", 0⟩, "", []⟩

/-- GetCacheStats mirrors CacheService.GetCacheStats: a fold over the
name-sorted GetAllCacheInfo result (whose error is always nil). -/
def GetCacheStats (factory : List Backend) : Except Err CacheStats :=
  .ok ((okList (GetAllCacheInfo factory)).foldl cacheStatsStep initCacheStats)

/-- CacheSummary mirrors services.CacheSummary. -/
structure CacheSummary where
  TotalSize : Int
  TotalFiles : Int
  ManagerCount : Nat
  LargestCacheManager : String
  LargestCacheSize : Int
  AvailableManagers : List String
deriving DecidableEq

/-- GetCacheSummary mirrors CacheService.GetCacheSummary. -/
def GetCacheSummary (factory : List Backend) : Except Err CacheSummary :=
  match GetCacheStats factory with
  | .error e => .error e
  | .ok stats =>
    .ok ⟨stats.TotalSize, stats.TotalFiles, stats.ManagerCount,
         stats.LargestCacheManager, stats.LargestCache.Size,
         ManagerFactory.GetAvailableManagerNames factory⟩

end CacheService

namespace PackageService

/-- packageKey mirrors the fmt.Sprintf key of removeDuplicatePackages. -/
def packageKey (p : Package) : String :=
  p.Name ++ "@" ++ p.Version ++ ":" ++ p.Manager

/-- removeDuplicatesAux is the loop of removeDuplicatePackages with the seen
set made explicit. -/
def removeDuplicatesAux (seen : List String) : List Package → List Package
  | [] => []
  | p :: rest =>
    if packageKey p ∈ seen then removeDuplicatesAux seen rest
    else p :: removeDuplicatesAux (packageKey p :: seen) rest

/-- removeDuplicatePackages mirrors PackageService.removeDuplicatePackages. -/
def removeDuplicatePackages (packages : List Package) : List Package :=
  removeDuplicatesAux [] packages

/-- pkgFetch is the contribution of one GetInstalledPackages goroutine. -/
def pkgFetch (projectPath : String) (b : Backend) : List Package :=
  match b.GetInstalledPackages projectPath with
  | .ok ps => ps
  | .error _ => []

/-- pkgErrs is the error contribution of one GetInstalledPackages goroutine;
the sentinel project-not-found error is absorbed silently. -/
def pkgErrs (projectPath : String) (b : Backend) : List Err :=
  match b.GetInstalledPackages projectPath with
  | .ok _ => []
  | .error e =>
    if e = .projectNotFound then []
    else [.opFailed ("failed to get packages from " ++ b.Name) e]

/-- GetAllPackages mirrors PackageService.GetAllPackages: validation, fan-out,
dedup, sort by package name, errors logged only. -/
def GetAllPackages (factory : List Backend) (projectPath : String) :
    Except Err (List Package) × List Err :=
  if projectPath = "" then
    (.error (.validation "projectPath" projectPath "project path cannot be empty"), [])
  else
    let acc := (ManagerFactory.GetAvailableManagers factory).foldl
      (collectStep (pkgFetch projectPath) (pkgErrs projectPath)) ([], [])
    (.ok (sortOn (fun p => p.Name.data) (removeDuplicatePackages acc.1)), acc.2)

/-- globFetch is the contribution of one GetGlobalPackages goroutine. -/
def globFetch (b : Backend) : List Package :=
  match b.GetGlobalPackages with
  | .ok ps => ps
  | .error _ => []

/-- globErrs is the error contribution of one GetGlobalPackages goroutine. -/
def globErrs (b : Backend) : List Err :=
  match b.GetGlobalPackages with
  | .ok _ => []
  | .error e => [.opFailed ("failed to get global packages from " ++ b.Name) e]

/-- GetGlobalPackages mirrors PackageService.GetGlobalPackages. -/
def GetGlobalPackages (factory : List Backend) :
    Except Err (List Package) × List Err :=
  let acc := (ManagerFactory.GetAvailableManagers factory).foldl
    (collectStep globFetch globErrs) ([], [])
  (.ok (sortOn (fun p => p.Name.data) (removeDuplicatePackages acc.1)), acc.2)

end PackageService

/-- ParsedURL is the part of a parsed net/url URL the config service reads. -/
structure ParsedURL where
  Scheme : String
  Host : String
deriving DecidableEq

namespace ConfigService

/-- ValidateRegistryURL mirrors ConfigService.ValidateRegistryURL; urlParse
abstracts net/url Parse, none modelling a parse error. -/
def ValidateRegistryURL (urlParse : String → Option ParsedURL)
    (registryURL : String) : Option Err :=
  if registryURL = "" then
    some (.validation "registry" registryURL "registry URL cannot be empty")
  else
    match urlParse registryURL with
    | none => some (.validation "registry" registryURL "invalid URL format")
    | some u =>
      if u.Scheme ≠ "http" ∧ u.Scheme ≠ "https" then
        some (.validation "registry" registryURL "registry URL must use http or https scheme")
      else if u.Host = "" then
        some (.validation "registry" registryURL "registry URL must have a host")
      else none

/-- ValidateProxyURL mirrors ConfigService.ValidateProxyURL; an empty proxy
URL is valid and means no proxy. -/
def ValidateProxyURL (urlParse : String → Option ParsedURL)
    (proxyURL : String) : Option Err :=
  if proxyURL = "" then none
  else
    match urlParse proxyURL with
    | none => some (.validation "proxy" proxyURL "invalid URL format")
    | some u =>
      if u.Scheme ≠ "http" ∧ u.Scheme ≠ "https" then
        some (.validation "proxy" proxyURL "proxy URL must use http or https scheme")
      else if u.Host = "" then
        some (.validation "proxy" proxyURL "proxy URL must have a host")
      else none

/-- configFetch is the contribution of one GetConfig goroutine. -/
def configFetch (b : Backend) : List Config :=
  match b.GetConfig with
  | .ok c => [c]
  | .error _ => []

/-- configErrs is the error contribution of one GetConfig goroutine. -/
def configErrs (b : Backend) : List Err :=
  match b.GetConfig with
  | .ok _ => []
  | .error e => [.opFailed ("failed to get config for " ++ b.Name) e]

/-- GetAllConfigs mirrors ConfigService.GetAllConfigs. -/
def GetAllConfigs (factory : List Backend) :
    Except Err (List Config) × List Err :=
  let acc := (ManagerFactory.GetAvailableManagers factory).foldl
    (collectStep configFetch configErrs) ([], [])
  (.ok (sortOn (fun c => c.Manager.data) acc.1), acc.2)

/-- SetRegistry mirrors ConfigService.SetRegistry; the second component is
the list of backends whose setter was actually invoked. -/
def SetRegistry (urlParse : String → Option ParsedURL) (factory : List Backend)
    (managerName registryURL : String) : Option Err × List String :=
  match ValidateRegistryURL urlParse registryURL with
  | some e => (some e, [])
  | none =>
    match ManagerFactory.GetManager factory managerName with
    | .error e => (some e, [])
    | .ok m =>
      if m.IsAvailable then
        match m.SetRegistry registryURL with
        | some e => (some (.backend e), [m.Name])
        | none => (none, [m.Name])
      else (some (.managerNotAvailable managerName "set registry"), [])

/-- setRegFailed is the failure contribution of one SetRegistry goroutine. -/
def setRegFailed (registryURL : String) (b : Backend) :
    List (String × BackendErr) :=
  match b.SetRegistry registryURL with
  | none => []
  | some e => [(b.Name, e)]

/-- SetRegistryForAll mirrors ConfigService.SetRegistryForAll; the trailing
components are the invoked backend names and the collected failures. -/
def SetRegistryForAll (urlParse : String → Option ParsedURL)
    (factory : List Backend) (registryURL : String) :
    Option Err × List String × List (String × BackendErr) :=
  match ValidateRegistryURL urlParse registryURL with
  | some e => (some e, [], [])
  | none =>
    let acc := (ManagerFactory.GetAvailableManagers factory).foldl
      (collectStep (fun b => [b.Name]) (setRegFailed registryURL)) ([], [])
    (if acc.2 = [] then none
     else some (.combined "failed to set registry for some managers" acc.2),
     acc.1, acc.2)

/-- SetProxy mirrors ConfigService.SetProxy; the Go guard wrapping the
validation in a non-empty check is the identity here because
ValidateProxyURL already accepts the empty string. -/
def SetProxy (urlParse : String → Option ParsedURL) (factory : List Backend)
    (managerName proxyURL : String) : Option Err × List String :=
  match ValidateProxyURL urlParse proxyURL with
  | some e => (some e, [])
  | none =>
    match ManagerFactory.GetManager factory managerName with
    | .error e => (some e, [])
    | .ok m =>
      if m.IsAvailable then
        match m.SetProxy proxyURL with
        | some e => (some (.backend e), [m.Name])
        | none => (none, [m.Name])
      else (some (.managerNotAvailable managerName "set proxy"), [])

/-- setProxyFailed is the failure contribution of one SetProxy goroutine. -/
def setProxyFailed (proxyURL : String) (b : Backend) :
    List (String × BackendErr) :=
  match b.SetProxy proxyURL with
  | none => []
  | some e => [(b.Name, e)]

/-- SetProxyForAll mirrors ConfigService.SetProxyForAll. -/
def SetProxyForAll (urlParse : String → Option ParsedURL)
    (factory : List Backend) (proxyURL : String) :
    Option Err × List String × List (String × BackendErr) :=
  match ValidateProxyURL urlParse proxyURL with
  | some e => (some e, [], [])
  | none =>
    let acc := (ManagerFactory.GetAvailableManagers factory).foldl
      (collectStep (fun b => [b.Name]) (setProxyFailed proxyURL)) ([], [])
    (if acc.2 = [] then none
     else some (.combined "failed to set proxy for some managers" acc.2),
     acc.1, acc.2)

end ConfigService

/-- FS abstracts the pkg/utils filesystem helpers used by the project
service: path expansion (none modelling an expansion error), existence and
directory checks. -/
structure FS where
  expandPath : String → Option String
  pathExists : String → Bool
  isDir : String → Bool

namespace ProjectService

/-- projFetch is the contribution of one GetProjects goroutine. -/
def projFetch (expandedPath : String) (b : Backend) : List Project :=
  match b.GetProjects expandedPath with
  | .ok ps => ps
  | .error _ => []

/-- projErrs is the error contribution of one GetProjects goroutine. -/
def projErrs (expandedPath : String) (b : Backend) : List Err :=
  match b.GetProjects expandedPath with
  | .ok _ => []
  | .error e => [.opFailed ("failed to scan projects with " ++ b.Name) e]

/-- mergeManagers is the inner loop of mergeProjects: append each manager of
the incoming record that the accumulated record does not already list. -/
def mergeManagers (existing incoming : List String) : List String :=
  incoming.foldl (fun acc m => if m ∈ acc then acc else acc ++ [m]) existing

/-- mergeTwo merges one incoming record into the record already stored for
the same path: union the managers and fill an empty lock-file path. -/
def mergeTwo (existing p : Project) : Project :=
  { existing with
    Managers := mergeManagers existing.Managers p.Managers,
    LockFile :=
      if existing.LockFile = "" ∧ p.LockFile ≠ "" then p.LockFile
      else existing.LockFile }

/-- mergeStep processes one record of the input slice against the map keyed
by path (an association list in insertion order). -/
def mergeStep (acc : List Project) (p : Project) : List Project :=
  if acc.any (fun q => q.Path == p.Path) then
    acc.map (fun q => if q.Path == p.Path then mergeTwo q p else q)
  else acc ++ [p]

/-- mergeProjects mirrors ProjectService.mergeProjects.  The Go code stores
records in a map and returns its values in an arbitrary order; since the
caller sorts by the unique path key, the insertion-order list is an
equivalent model. -/
def mergeProjects (projects : List Project) : List Project :=
  projects.foldl mergeStep []

/-- ScanProjects mirrors ProjectService.ScanProjects: path validation,
fan-out of GetProjects, merge by path, sort by path, errors logged only. -/
def ScanProjects (fs : FS) (factory : List Backend) (rootPath : String) :
    Except Err (List Project) × List Err :=
  if rootPath = "" then
    (.error (.validation "rootPath" rootPath "root path cannot be empty"), [])
  else
    match fs.expandPath rootPath with
    | none => (.error (.internal "failed to expand path"), [])
    | some expandedPath =>
      if ¬ fs.pathExists expandedPath then
        (.error (.validation "rootPath" rootPath "path does not exist"), [])
      else if ¬ fs.isDir expandedPath then
        (.error (.validation "rootPath" rootPath "path is not a directory"), [])
      else
        let acc := (ManagerFactory.GetAvailableManagers factory).foldl
          (collectStep (projFetch expandedPath) (projErrs expandedPath)) ([], [])
        (.ok (sortOn (fun p => p.Path.data) (mergeProjects acc.1)), acc.2)

/-- depNode is the child literal built for one declared dependency entry. -/
def depNode (dev : Bool) (entry : String × String) : DependencyTree :=
  .mk entry.1 entry.2 dev 1 []

/-- GetProjectDependencies mirrors ProjectService.GetProjectDependencies.
The manifest parameter abstracts reading package.json at the project path
(none models a missing manifest file); no backend takes part in this call,
which is why the definition takes no factory argument. -/
def GetProjectDependencies (projectPath : String)
    (manifest : Option PackageJsonInfo) : Except Err DependencyTree :=
  if projectPath = "" then
    .error (.validation "projectPath" projectPath "project path cannot be empty")
  else
    match manifest with
    | none => .error (.backend .projectNotFound)
    | some pj =>
      .ok (.mk pj.Name pj.Version false 0
        (pj.Dependencies.map (depNode false) ++ pj.DevDependencies.map (depNode true)))

end ProjectService

/-! Helper lemmas about the fan-out fold and the sort step. -/

theorem collect_foldl {α β : Type} (f : Backend → List α) (g : Backend → List β) :
    ∀ (bs : List Backend) (x : List α) (y : List β),
      bs.foldl (collectStep f g) (x, y) = (x ++ bs.flatMap f, y ++ bs.flatMap g) := by
  intro bs
  induction bs with
  | nil => intro x y; simp
  | cons b t ih =>
    intro x y
    simp only [List.foldl_cons, collectStep, ih, List.flatMap_cons, List.append_assoc]

theorem sortOn_sorted {α : Type} (key : α → List Char) (l : List α) :
    (sortOn key l).Sorted (fun a b => key a ≤ key b) := by
  haveI : IsTotal α (fun a b => key a ≤ key b) := ⟨fun a b => le_total (key a) (key b)⟩
  haveI : IsTrans α (fun a b => key a ≤ key b) :=
    ⟨fun _ _ _ hab hbc => le_trans hab hbc⟩
  exact List.sorted_insertionSort _ l

theorem sortOn_perm {α : Type} (key : α → List Char) (l : List α) :
    (sortOn key l).Perm l :=
  List.perm_insertionSort _ l

theorem okList_ok {α β : Type} (l : List α) (e : β) :
    okList ((Except.ok l : Except Err (List α)), e) = l := rfl

/-! Characterizations of the aggregate fan-outs as flat maps over the
available backends, obtained by unrolling the accumulator fold. -/

theorem GetAllCacheInfo_eq (factory : List Backend) :
    CacheService.GetAllCacheInfo factory =
      (Except.ok (sortOn (fun i => i.Manager.data)
        ((ManagerFactory.GetAvailableManagers factory).flatMap CacheService.cacheFetch)),
       (ManagerFactory.GetAvailableManagers factory).flatMap CacheService.cacheErrs) := by
  simp [CacheService.GetAllCacheInfo, collect_foldl]

theorem GetAllConfigs_eq (factory : List Backend) :
    ConfigService.GetAllConfigs factory =
      (Except.ok (sortOn (fun c => c.Manager.data)
        ((ManagerFactory.GetAvailableManagers factory).flatMap ConfigService.configFetch)),
       (ManagerFactory.GetAvailableManagers factory).flatMap ConfigService.configErrs) := by
  simp [ConfigService.GetAllConfigs, collect_foldl]

theorem GetAllPackages_eq (factory : List Backend) (projectPath : String)
    (hpp : projectPath ≠ "") :
    PackageService.GetAllPackages factory projectPath =
      (Except.ok (sortOn (fun p => p.Name.data)
        (PackageService.removeDuplicatePackages
          ((ManagerFactory.GetAvailableManagers factory).flatMap
            (PackageService.pkgFetch projectPath)))),
       (ManagerFactory.GetAvailableManagers factory).flatMap
         (PackageService.pkgErrs projectPath)) := by
  simp [PackageService.GetAllPackages, hpp, collect_foldl]

theorem GetGlobalPackages_eq (factory : List Backend) :
    PackageService.GetGlobalPackages factory =
      (Except.ok (sortOn (fun p => p.Name.data)
        (PackageService.removeDuplicatePackages
          ((ManagerFactory.GetAvailableManagers factory).flatMap PackageService.globFetch))),
       (ManagerFactory.GetAvailableManagers factory).flatMap PackageService.globErrs) := by
  simp [PackageService.GetGlobalPackages, collect_foldl]

theorem ScanProjects_eq (fs : FS) (factory : List Backend)
    (rootPath expandedPath : String) (hroot : rootPath ≠ "")
    (hexp : fs.expandPath rootPath = some expandedPath)
    (hex : fs.pathExists expandedPath = true)
    (hdir : fs.isDir expandedPath = true) :
    ProjectService.ScanProjects fs factory rootPath =
      (Except.ok (sortOn (fun p => p.Path.data)
        (ProjectService.mergeProjects
          ((ManagerFactory.GetAvailableManagers factory).flatMap
            (ProjectService.projFetch expandedPath)))),
       (ManagerFactory.GetAvailableManagers factory).flatMap
         (ProjectService.projErrs expandedPath)) := by
  simp [ProjectService.ScanProjects, hroot, hexp, hex, hdir, collect_foldl]

/-! Concrete fixtures used by the witnesses. -/

/-- pkgA is a sample installed package record. -/
def pkgA : Package := ⟨"lodash", "4.17.21", "", "npm", false, "/p/lodash", 0, [], []⟩

/-- cacheNpm is a sample cache record reported by the npm backend. -/
def cacheNpm : CacheInfo := ⟨"npm", "/cache/npm", 7, 3, 0⟩

/-- configNpm is a sample config record reported by the npm backend. -/
def configNpm : Config := ⟨"npm", "https://registry.npmjs.org", "", []⟩

/-- projNpm is the project record the npm backend reports for path /a. -/
def projNpm : Project := ⟨"app", "/a", ["npm"], "/a/package.json", "", "/a/node_modules"⟩

/-- projYarn is the project record the yarn backend reports for path /a. -/
def projYarn : Project := ⟨"app", "/a", ["yarn"], "/a/package.json", "/a/yarn.lock", "/a/node_modules"⟩

/-- npmB is an available backend whose calls all succeed. -/
def npmB : Backend :=
  ⟨"npm", true, .ok cacheNpm, none, fun _ => .ok [pkgA], .ok [pkgA],
   .ok configNpm, fun _ => none, fun _ => none, fun _ => .ok [projNpm]⟩

/-- yarnB is an available backend whose calls all fail (installed-package
listing with the project-not-found sentinel, the rest with plain failures). -/
def yarnB : Backend :=
  ⟨"yarn", true, .error (.failure 1), some (.failure 2),
   fun _ => .error .projectNotFound, .error (.failure 3), .error (.failure 4),
   fun _ => some (.failure 5), fun _ => some (.failure 6),
   fun _ => .ok [projYarn]⟩

/-- pnpmB is a registered backend that is currently unavailable. -/
def pnpmB : Backend :=
  ⟨"pnpm", false, .error (.failure 9), some (.failure 9),
   fun _ => .error (.failure 9), .error (.failure 9), .error (.failure 9),
   fun _ => some (.failure 9), fun _ => some (.failure 9),
   fun _ => .error (.failure 9)⟩

/-- demoFS is a filesystem in which every path expands to itself, exists and
is a directory. -/
def demoFS : FS := ⟨fun s => some s, fun _ => true, fun _ => true⟩

/-- C1: aggregate read operations never fail due to individual backend
failures.  For every non-empty projectPath, GetAllPackages returns the
merged list of the succeeding backends with a nil error; a backend failing
with the ProjectNotFound sentinel is never logged; any other failing backend
contributes exactly its logged error and no records; GetAllCacheInfo and
GetAllConfigs likewise return their merged lists with a nil error. -/
theorem C1_aggregate_reads_never_fail (factory : List Backend)
    (projectPath : String) (hpp : projectPath ≠ "") :
    (PackageService.GetAllPackages factory projectPath).1 =
      Except.ok (sortOn (fun p => p.Name.data)
        (PackageService.removeDuplicatePackages
          ((ManagerFactory.GetAvailableManagers factory).flatMap
            (PackageService.pkgFetch projectPath))))
  ∧ (∀ ctx, Err.opFailed ctx BackendErr.projectNotFound ∉
      (PackageService.GetAllPackages factory projectPath).2)
  ∧ (PackageService.GetAllPackages factory projectPath).2 =
      (ManagerFactory.GetAvailableManagers factory).flatMap
        (PackageService.pkgErrs projectPath)
  ∧ (CacheService.GetAllCacheInfo factory).1 =
      Except.ok (sortOn (fun i => i.Manager.data)
        ((ManagerFactory.GetAvailableManagers factory).flatMap CacheService.cacheFetch))
  ∧ (ConfigService.GetAllConfigs factory).1 =
      Except.ok (sortOn (fun c => c.Manager.data)
        ((ManagerFactory.GetAvailableManagers factory).flatMap ConfigService.configFetch)) := by
  refine ⟨?_, ?_, ?_, ?_, ?_⟩
  · rw [GetAllPackages_eq factory projectPath hpp]
  · intro ctx hmem
    rw [GetAllPackages_eq factory projectPath hpp] at hmem
    simp only [List.mem_flatMap] at hmem
    obtain ⟨b, _, hb⟩ := hmem
    unfold PackageService.pkgErrs at hb
    revert hb
    split
    · simp
    · split
      · simp
      · rename_i e hne
        intro hb
        simp only [List.mem_singleton] at hb
        cases hb
        exact hne rfl
  · rw [GetAllPackages_eq factory projectPath hpp]
  · rw [GetAllCacheInfo_eq factory]
  · rw [GetAllConfigs_eq factory]

/-- C1 witness: with npm succeeding and yarn failing, the package, cache and
config aggregates all come back as a nil-error merged result. -/
theorem C1_witness :
    ("/proj" : String) ≠ ""
  ∧ (PackageService.GetAllPackages [npmB, yarnB] "/proj").1 = Except.ok [pkgA]
  ∧ (PackageService.GetAllPackages [npmB, yarnB] "/proj").2 = []
  ∧ (CacheService.GetAllCacheInfo [npmB, yarnB]).1 = Except.ok [cacheNpm]
  ∧ (ConfigService.GetAllConfigs [npmB, yarnB]).1 = Except.ok [configNpm] := by
  have h := C1_aggregate_reads_never_fail [npmB, yarnB] "/proj" (by decide)
  refine ⟨by decide, ?_, ?_, ?_, ?_⟩
  · rw [h.1]; rfl
  · rw [h.2.2.1]; rfl
  · rw [h.2.2.2.1]; rfl
  · rw [h.2.2.2.2]; rfl

/-- C7: for every backend name that is not registered, the single-backend
GetCacheInfo call fails with the manager-not-found factory error, whatever
else is registered or available. -/
theorem C7_unknown_backend (factory : List Backend) (name : String)
    (h : factory.find? (fun b => b.Name == name) = none) :
    CacheService.GetCacheInfo factory name =
      Except.error (Err.managerNotFound name) := by
  simp [CacheService.GetCacheInfo, ManagerFactory.GetManager, h]

/-- C7 witness: the name doesnotexist is unknown in a registry holding npm,
yarn and an unavailable pnpm. -/
theorem C7_witness :
    ([npmB, yarnB, pnpmB].find? (fun b => b.Name == "doesnotexist") = none)
  ∧ CacheService.GetCacheInfo [npmB, yarnB, pnpmB] "doesnotexist" =
      Except.error (Err.managerNotFound "doesnotexist") :=
  ⟨rfl, C7_unknown_backend [npmB, yarnB, pnpmB] "doesnotexist" rfl⟩

/-- C10: when the GetCacheInfo call of every available backend errors,
GetAllCacheInfo returns the empty list together with a nil error. -/
theorem C10_all_backends_fail (factory : List Backend)
    (hall : ∀ b ∈ ManagerFactory.GetAvailableManagers factory,
      ∃ e, b.GetCacheInfo = Except.error e) :
    (CacheService.GetAllCacheInfo factory).1 = Except.ok ([] : List CacheInfo) := by
  rw [GetAllCacheInfo_eq factory]
  have hnil : (ManagerFactory.GetAvailableManagers factory).flatMap
      CacheService.cacheFetch = [] := by
    rw [List.flatMap_eq_nil_iff]
    intro b hb
    obtain ⟨e, he⟩ := hall b hb
    simp [CacheService.cacheFetch, he]
  rw [hnil]
  rfl

/-- C10 witness: a factory whose only available backend fails yields the
empty list with a nil error. -/
theorem C10_witness :
    (∀ b ∈ ManagerFactory.GetAvailableManagers [yarnB, pnpmB],
      ∃ e, b.GetCacheInfo = Except.error e)
  ∧ (CacheService.GetAllCacheInfo [yarnB, pnpmB]).1 = Except.ok ([] : List CacheInfo) := by
  have hall : ∀ b ∈ ManagerFactory.GetAvailableManagers [yarnB, pnpmB],
      ∃ e, b.GetCacheInfo = Except.error e := by
    intro b hb
    simp only [ManagerFactory.GetAvailableManagers, List.filter] at hb
    simp only [yarnB, pnpmB] at hb
    simp at hb
    subst hb
    exact ⟨.failure 1, rfl⟩
  exact ⟨hall, C10_all_backends_fail [yarnB, pnpmB] hall⟩

/-- C2: every aggregate list result is sorted ascending by its defined sort
key, whatever the arrival order of the concurrent tasks (the backend list
order is universally quantified): GetAllCacheInfo and GetAllConfigs by
manager name, GetAllPackages and GetGlobalPackages by package name,
ScanProjects by project path. -/
theorem C2_sort_invariant (factory : List Backend) (projectPath : String)
    (fs : FS) (rootPath expandedPath : String)
    (hpp : projectPath ≠ "") (hroot : rootPath ≠ "")
    (hexp : fs.expandPath rootPath = some expandedPath)
    (hex : fs.pathExists expandedPath = true)
    (hdir : fs.isDir expandedPath = true) :
    List.Sorted (fun a b => a.Manager.data ≤ b.Manager.data)
      (okList (CacheService.GetAllCacheInfo factory))
  ∧ List.Sorted (fun a b => a.Manager.data ≤ b.Manager.data)
      (okList (ConfigService.GetAllConfigs factory))
  ∧ List.Sorted (fun a b => a.Name.data ≤ b.Name.data)
      (okList (PackageService.GetAllPackages factory projectPath))
  ∧ List.Sorted (fun a b => a.Name.data ≤ b.Name.data)
      (okList (PackageService.GetGlobalPackages factory))
  ∧ List.Sorted (fun a b => a.Path.data ≤ b.Path.data)
      (okList (ProjectService.ScanProjects fs factory rootPath)) := by
  refine ⟨?_, ?_, ?_, ?_, ?_⟩
  · rw [GetAllCacheInfo_eq]
    exact sortOn_sorted _ _
  · rw [GetAllConfigs_eq]
    exact sortOn_sorted _ _
  · rw [GetAllPackages_eq factory projectPath hpp]
    exact sortOn_sorted _ _
  · rw [GetGlobalPackages_eq]
    exact sortOn_sorted _ _
  · rw [ScanProjects_eq fs factory rootPath expandedPath hroot hexp hex hdir]
    exact sortOn_sorted _ _

/-- C2 witness: the sort invariant instantiated on a two-backend registry
listed in reverse alphabetical arrival order. -/
theorem C2_witness :
    ("/proj" : String) ≠ "" ∧ ("/root" : String) ≠ ""
  ∧ demoFS.expandPath "/root" = some "/root"
  ∧ demoFS.pathExists "/root" = true
  ∧ demoFS.isDir "/root" = true
  ∧ List.Sorted (fun (a b : CacheInfo) => a.Manager.data ≤ b.Manager.data)
      (okList (CacheService.GetAllCacheInfo [yarnB, npmB]))
  ∧ List.Sorted (fun (a b : Config) => a.Manager.data ≤ b.Manager.data)
      (okList (ConfigService.GetAllConfigs [yarnB, npmB]))
  ∧ List.Sorted (fun (a b : Package) => a.Name.data ≤ b.Name.data)
      (okList (PackageService.GetAllPackages [yarnB, npmB] "/proj"))
  ∧ List.Sorted (fun (a b : Package) => a.Name.data ≤ b.Name.data)
      (okList (PackageService.GetGlobalPackages [yarnB, npmB]))
  ∧ List.Sorted (fun (a b : Project) => a.Path.data ≤ b.Path.data)
      (okList (ProjectService.ScanProjects demoFS [yarnB, npmB] "/root")) := by
  have h := C2_sort_invariant [yarnB, npmB] "/proj" demoFS "/root" "/root"
    (by decide) (by decide) rfl rfl rfl
  exact ⟨by decide, by decide, rfl, rfl, rfl,
    h.1, h.2.1, h.2.2.1, h.2.2.2.1, h.2.2.2.2⟩

/-- C8: for a project whose manifest declares dependency map D and
dev-dependency map DD, GetProjectDependencies returns a root of depth 0 with
exactly card D plus card DD children, every child of depth 1, the dev flag
false on the children built from D and true on those built from DD; the
definition takes no backend or factory argument, so no backend call is
involved. -/
theorem C8_dependency_tree (projectPath : String)
    (manifest : Option PackageJsonInfo) (pj : PackageJsonInfo)
    (hpp : projectPath ≠ "") (hm : manifest = some pj) :
    ∃ t, ProjectService.GetProjectDependencies projectPath manifest = Except.ok t
      ∧ t.Depth = 0
      ∧ t.Dependencies.length =
          pj.Dependencies.length + pj.DevDependencies.length
      ∧ (∀ c ∈ t.Dependencies, c.Depth = 1)
      ∧ t.Dependencies =
          pj.Dependencies.map (ProjectService.depNode false)
            ++ pj.DevDependencies.map (ProjectService.depNode true)
      ∧ (∀ nv, ProjectService.depNode false nv = DependencyTree.mk nv.1 nv.2 false 1 []
             ∧ ProjectService.depNode true nv = DependencyTree.mk nv.1 nv.2 true 1 []) := by
  subst hm
  refine ⟨DependencyTree.mk pj.Name pj.Version false 0
    (pj.Dependencies.map (ProjectService.depNode false)
      ++ pj.DevDependencies.map (ProjectService.depNode true)),
    ?_, rfl, ?_, ?_, rfl, fun nv => ⟨rfl, rfl⟩⟩
  · simp [ProjectService.GetProjectDependencies, hpp]
  · simp [DependencyTree.Dependencies]
  · intro c hc
    simp only [DependencyTree.Dependencies, List.mem_append, List.mem_map] at hc
    rcases hc with ⟨nv, _, rfl⟩ | ⟨nv, _, rfl⟩ <;> rfl

/-- demoPj is a manifest with one dependency and one dev dependency. -/
def demoPj : PackageJsonInfo :=
  ⟨"demo", "1.0.0", "", [("react", "18.2.0")], [("typescript", "4.9.0")], []⟩

/-- C8 witness: the dependency tree of the demo manifest. -/
theorem C8_witness :
    ("/p" : String) ≠ ""
  ∧ ∃ t, ProjectService.GetProjectDependencies "/p" (some demoPj) = Except.ok t
      ∧ t.Depth = 0 ∧ t.Dependencies.length = 2 ∧ ∀ c ∈ t.Dependencies, c.Depth = 1 := by
  obtain ⟨t, h1, h2, h3, h4, -⟩ :=
    C8_dependency_tree "/p" (some demoPj) demoPj (by decide) rfl
  exact ⟨by decide, t, h1, h2, h3.trans (by rfl), h4⟩

/-! Deduplication lemmas for claim C3. -/

theorem removeDuplicatesAux_filter (k : String) :
    ∀ (ps : List Package) (seen : List String),
      (PackageService.removeDuplicatesAux seen ps).filter
          (fun p => PackageService.packageKey p == k)
        = if k ∈ seen then []
          else (ps.filter (fun p => PackageService.packageKey p == k)).take 1 := by
  intro ps
  induction ps with
  | nil =>
    intro seen
    by_cases hk : k ∈ seen <;> simp [PackageService.removeDuplicatesAux, hk]
  | cons p rest ih =>
    intro seen
    simp only [PackageService.removeDuplicatesAux]
    by_cases hp : PackageService.packageKey p ∈ seen
    · simp only [if_pos hp, ih, List.filter_cons]
      by_cases hk : k ∈ seen
      · simp [hk]
      · have hne : (PackageService.packageKey p == k) = false := by
          simp only [beq_eq_false_iff_ne, ne_eq]
          exact fun h => hk (h ▸ hp)
        simp [hk, hne]
    · simp only [if_neg hp, List.filter_cons]
      by_cases hpk : PackageService.packageKey p = k
      · have hk : k ∉ seen := hpk ▸ hp
        simp [hpk, ih, hk]
      · have hne : (PackageService.packageKey p == k) = false := by
          simp only [beq_eq_false_iff_ne, ne_eq]
          exact hpk
        have hkp : k ∉ [PackageService.packageKey p] ∨ True := Or.inr trivial
        simp only [hne, Bool.false_eq_true, if_false, ih, List.mem_cons]
        have : ¬ k = PackageService.packageKey p := fun h => hpk h.symm
        simp [this]

theorem removeDuplicatePackages_filter (ps : List Package) (k : String) :
    (PackageService.removeDuplicatePackages ps).filter
        (fun p => PackageService.packageKey p == k)
      = (ps.filter (fun p => PackageService.packageKey p == k)).take 1 := by
  simpa [PackageService.removeDuplicatePackages] using
    removeDuplicatesAux_filter k ps []

theorem removeDuplicatesAux_nodup :
    ∀ (ps : List Package) (seen : List String),
      ((PackageService.removeDuplicatesAux seen ps).map PackageService.packageKey).Nodup
    ∧ ∀ p ∈ PackageService.removeDuplicatesAux seen ps,
        PackageService.packageKey p ∉ seen := by
  intro ps
  induction ps with
  | nil => intro seen; simp [PackageService.removeDuplicatesAux]
  | cons p rest ih =>
    intro seen
    simp only [PackageService.removeDuplicatesAux]
    by_cases hp : PackageService.packageKey p ∈ seen
    · simpa [hp] using ih seen
    · simp only [if_neg hp]
      obtain ⟨ihn, ihs⟩ := ih (PackageService.packageKey p :: seen)
      refine ⟨?_, ?_⟩
      · simp only [List.map_cons, List.nodup_cons]
        refine ⟨?_, ihn⟩
        intro hmem
        simp only [List.mem_map] at hmem
        obtain ⟨q, hq, hkey⟩ := hmem
        exact ihs q hq (by rw [hkey]; exact List.mem_cons_self _ _)
      · intro q hq
        rcases List.mem_cons.mp hq with rfl | hq2
        · exact hp
        · exact fun hqs => ihs q hq2 (List.mem_cons_of_mem _ hqs)

theorem sortOn_map_nodup {α β : Type} (key : α → List Char) (f : α → β)
    (l : List α) (h : (l.map f).Nodup) : ((sortOn key l).map f).Nodup :=
  (((sortOn_perm key l).map f).nodup_iff).mpr h

theorem key_eq_of_triple_eq {p q : Package}
    (h : (p.Name, p.Version, p.Manager) = (q.Name, q.Version, q.Manager)) :
    PackageService.packageKey p = PackageService.packageKey q := by
  obtain ⟨h1, h2, h3⟩ :
      p.Name = q.Name ∧ p.Version = q.Version ∧ p.Manager = q.Manager := by
    simpa [Prod.ext_iff] using h
  simp [PackageService.packageKey, h1, h2, h3]

theorem pairwise_triple_ne_of_key_nodup (l : List Package)
    (h : (l.map PackageService.packageKey).Nodup) :
    l.Pairwise (fun p q =>
      (p.Name, p.Version, p.Manager) ≠ (q.Name, q.Version, q.Manager)) := by
  rw [List.Nodup, List.pairwise_map] at h
  exact h.imp (fun hk ht => hk (key_eq_of_triple_eq ht))

/-- pkgColl1 and pkgColl2 have different (name, version, manager) triples
but the same formatted dedup key. -/
def pkgColl1 : Package := ⟨"x", "y:z", "", "w", false, "", 0, [], []⟩

/-- pkgColl2 collides with pkgColl1 on the formatted key. -/
def pkgColl2 : Package := ⟨"x", "y", "", "z:w", false, "", 0, [], []⟩

/-- collB is a backend reporting the two colliding records. -/
def collB : Backend :=
  ⟨"npm", true, .error (.failure 0), none, fun _ => .ok [pkgColl1, pkgColl2],
   .ok [], .error (.failure 0), fun _ => none, fun _ => none, fun _ => .ok []⟩

/-- C3 counterexample: the dedup key is the formatted string
name at-sign version colon manager, which is not injective on triples; the
two records differ in all but the name component yet the second one is
dropped by removeDuplicatePackages and by GetAllPackages, refuting the
stated records-whose-triples-differ-are-all-kept property. -/
theorem C3_counterexample :
    (pkgColl1.Name, pkgColl1.Version, pkgColl1.Manager)
      ≠ (pkgColl2.Name, pkgColl2.Version, pkgColl2.Manager)
  ∧ PackageService.packageKey pkgColl1 = PackageService.packageKey pkgColl2
  ∧ PackageService.removeDuplicatePackages [pkgColl1, pkgColl2] = [pkgColl1]
  ∧ (PackageService.GetAllPackages [collB] "/proj").1 = Except.ok [pkgColl1] :=
  ⟨by decide, rfl, rfl, rfl⟩

/-- C3 (amended): deduplication is exactly by the formatted string key
name at-sign version colon manager: no two entries returned by
GetAllPackages or GetGlobalPackages share that key (hence none share the
(name, version, manager) triple), and a raw fan-out record is kept exactly
when it is the first record with its key in accumulation order — records
whose keys differ are all kept, though distinct triples can collide on the
key when the fields contain the separator characters. -/
theorem C3_amended_dedup_by_key (factory : List Backend) (projectPath : String)
    (hpp : projectPath ≠ "") :
    ((okList (PackageService.GetAllPackages factory projectPath)).map
      PackageService.packageKey).Nodup
  ∧ (okList (PackageService.GetAllPackages factory projectPath)).Pairwise
      (fun p q => (p.Name, p.Version, p.Manager) ≠ (q.Name, q.Version, q.Manager))
  ∧ ((okList (PackageService.GetGlobalPackages factory)).map
      PackageService.packageKey).Nodup
  ∧ (okList (PackageService.GetGlobalPackages factory)).Pairwise
      (fun p q => (p.Name, p.Version, p.Manager) ≠ (q.Name, q.Version, q.Manager))
  ∧ ∀ (ps : List Package) (k : String),
      (PackageService.removeDuplicatePackages ps).filter
          (fun p => PackageService.packageKey p == k)
        = (ps.filter (fun p => PackageService.packageKey p == k)).take 1 := by
  have h1 : ((okList (PackageService.GetAllPackages factory projectPath)).map
      PackageService.packageKey).Nodup := by
    rw [GetAllPackages_eq factory projectPath hpp]
    exact sortOn_map_nodup _ _ _ (removeDuplicatesAux_nodup _ []).1
  have h2 : ((okList (PackageService.GetGlobalPackages factory)).map
      PackageService.packageKey).Nodup := by
    rw [GetGlobalPackages_eq factory]
    exact sortOn_map_nodup _ _ _ (removeDuplicatesAux_nodup _ []).1
  exact ⟨h1, pairwise_triple_ne_of_key_nodup _ h1,
    h2, pairwise_triple_ne_of_key_nodup _ h2,
    removeDuplicatePackages_filter⟩

/-- C3 witness: the amended dedup property instantiated on the colliding
fixture backend. -/
theorem C3_witness :
    ("/proj" : String) ≠ ""
  ∧ ((okList (PackageService.GetAllPackages [collB] "/proj")).map
      PackageService.packageKey).Nodup
  ∧ (PackageService.removeDuplicatePackages [pkgColl1, pkgColl2]).filter
        (fun p => PackageService.packageKey p == PackageService.packageKey pkgColl2)
      = ([pkgColl1, pkgColl2].filter
          (fun p => PackageService.packageKey p == PackageService.packageKey pkgColl2)).take 1 := by
  have h := C3_amended_dedup_by_key [collB] "/proj" (by decide)
  exact ⟨by decide, h.1, h.2.2.2.2 [pkgColl1, pkgColl2] (PackageService.packageKey pkgColl2)⟩

/-! Lemmas for claim C5 about the best-effort clear of all caches. -/

theorem ClearAllCaches_eq (factory : List Backend) :
    CacheService.ClearAllCaches factory =
      (if (ManagerFactory.GetAvailableManagers factory).flatMap
            CacheService.clearFailed = []
       then none
       else some (Err.combined "failed to clear some caches"
         ((ManagerFactory.GetAvailableManagers factory).flatMap
           CacheService.clearFailed)),
       (ManagerFactory.GetAvailableManagers factory).flatMap
         CacheService.clearSucceeded,
       (ManagerFactory.GetAvailableManagers factory).flatMap
         CacheService.clearFailed) := by
  simp [CacheService.ClearAllCaches, collect_foldl]

theorem clearSucceeded_flatMap :
    ∀ bs : List Backend,
      bs.flatMap CacheService.clearSucceeded
        = (bs.filter (fun b => b.ClearCache.isNone)).map (fun b => b.Name) := by
  intro bs
  induction bs with
  | nil => rfl
  | cons b t ih =>
    rw [List.flatMap_cons, List.filter_cons]
    cases hb : b.ClearCache with
    | none =>
      have hstep : CacheService.clearSucceeded b = [b.Name] := by
        unfold CacheService.clearSucceeded
        rw [hb]
      simp [hstep, hb, ih]
    | some e =>
      have hstep : CacheService.clearSucceeded b = [] := by
        unfold CacheService.clearSucceeded
        rw [hb]
      simp [hstep, hb, ih]

theorem clearFailed_names :
    ∀ bs : List Backend,
      (bs.flatMap CacheService.clearFailed).map Prod.fst
        = (bs.filter (fun b => ¬ b.ClearCache.isNone)).map (fun b => b.Name) := by
  intro bs
  induction bs with
  | nil => rfl
  | cons b t ih =>
    rw [List.flatMap_cons, List.filter_cons]
    cases hb : b.ClearCache with
    | none =>
      have hstep : CacheService.clearFailed b = [] := by
        unfold CacheService.clearFailed
        rw [hb]
      simp [hstep, hb, ih]
    | some e =>
      have hstep : CacheService.clearFailed b = [(b.Name, e)] := by
        unfold CacheService.clearFailed
        rw [hb]
      simp [hstep, hb, ih]

theorem clearFailed_nil_iff (bs : List Backend) :
    bs.flatMap CacheService.clearFailed = [] ↔ ∀ b ∈ bs, b.ClearCache = none := by
  rw [List.flatMap_eq_nil_iff]
  constructor
  · intro h b hb
    have := h b hb
    unfold CacheService.clearFailed at this
    revert this
    cases hb2 : b.ClearCache <;> simp
  · intro h b hb
    unfold CacheService.clearFailed
    rw [h b hb]

/-- C5: ClearAllCaches is best-effort and non-atomic.  Every available
backend is attempted (each lands either among the cleared names or among
the failure entries); the cleared names are exactly the succeeding backends
regardless of other outcomes, and their effect is never undone; the result
is nil exactly when every backend succeeded, and otherwise it is one
combined error whose entries name precisely the failed backends. -/
theorem C5_clear_all_best_effort (factory : List Backend) :
    (CacheService.ClearAllCaches factory).2.1 =
      ((ManagerFactory.GetAvailableManagers factory).filter
        (fun b => b.ClearCache.isNone)).map (fun b => b.Name)
  ∧ ((CacheService.ClearAllCaches factory).1 = none ↔
      ∀ b ∈ ManagerFactory.GetAvailableManagers factory, b.ClearCache = none)
  ∧ ((∃ b ∈ ManagerFactory.GetAvailableManagers factory, b.ClearCache ≠ none) →
      (CacheService.ClearAllCaches factory).1 =
        some (Err.combined "failed to clear some caches"
          (CacheService.ClearAllCaches factory).2.2)
    ∧ (CacheService.ClearAllCaches factory).2.2.map Prod.fst =
        ((ManagerFactory.GetAvailableManagers factory).filter
          (fun b => ¬ b.ClearCache.isNone)).map (fun b => b.Name))
  ∧ ∀ b ∈ ManagerFactory.GetAvailableManagers factory,
      b.Name ∈ (CacheService.ClearAllCaches factory).2.1
      ∨ b.Name ∈ (CacheService.ClearAllCaches factory).2.2.map Prod.fst := by
  rw [ClearAllCaches_eq factory]
  refine ⟨clearSucceeded_flatMap _, ?_, ?_, ?_⟩
  · constructor
    · intro h
      rw [← clearFailed_nil_iff]
      by_contra hne
      simp only [if_neg hne] at h
      exact Option.some_ne_none _ h
    · intro h
      rw [if_pos ((clearFailed_nil_iff _).mpr h)]
  · intro hex
    have hne : (ManagerFactory.GetAvailableManagers factory).flatMap
        CacheService.clearFailed ≠ [] := by
      rw [ne_eq, clearFailed_nil_iff]
      intro hall
      obtain ⟨b, hb, hbad⟩ := hex
      exact hbad (hall b hb)
    exact ⟨if_neg hne, clearFailed_names _⟩
  · intro b hb
    rw [clearSucceeded_flatMap, clearFailed_names]
    cases hbc : b.ClearCache with
    | none =>
      left
      exact List.mem_map_of_mem _ (List.mem_filter.mpr ⟨hb, by simp [hbc]⟩)
    | some e =>
      right
      exact List.mem_map_of_mem _ (List.mem_filter.mpr ⟨hb, by simp [hbc]⟩)

/-- C5 witness: with npm succeeding, yarn failing and pnpm unavailable, the
combined error names exactly yarn while the npm cache stays cleared. -/
theorem C5_witness :
    (∃ b ∈ ManagerFactory.GetAvailableManagers [npmB, yarnB, pnpmB],
      b.ClearCache ≠ none)
  ∧ (CacheService.ClearAllCaches [npmB, yarnB, pnpmB]).1 =
      some (Err.combined "failed to clear some caches" [("yarn", .failure 2)])
  ∧ (CacheService.ClearAllCaches [npmB, yarnB, pnpmB]).2.1 = ["npm"]
  ∧ (CacheService.ClearAllCaches [npmB, yarnB, pnpmB]).2.2.map Prod.fst = ["yarn"] := by
  have h := C5_clear_all_best_effort [npmB, yarnB, pnpmB]
  have hmem : yarnB ∈ ManagerFactory.GetAvailableManagers [npmB, yarnB, pnpmB] := by
    rw [show ManagerFactory.GetAvailableManagers [npmB, yarnB, pnpmB]
        = [npmB, yarnB] from rfl]
    exact List.mem_cons_of_mem _ (List.mem_cons_self _ _)
  have hex : ∃ b ∈ ManagerFactory.GetAvailableManagers [npmB, yarnB, pnpmB],
      b.ClearCache ≠ none := ⟨yarnB, hmem, by decide⟩
  refine ⟨hex, ?_, ?_, ?_⟩
  · exact ((h.2.2.1 hex).1).trans (by rfl)
  · exact h.1.trans (by rfl)
  · exact ((h.2.2.1 hex).2).trans (by rfl)

/-! Lemmas for claim C6 about URL validation. -/

/-- BadURL captures the rejection conditions of the claim: empty string,
unparsable, scheme other than http or https, or empty host. -/
def BadURL (urlParse : String → Option ParsedURL) (url : String) : Prop :=
  url = "" ∨ urlParse url = none
  ∨ ∃ u, urlParse url = some u
      ∧ (¬ (u.Scheme = "http" ∨ u.Scheme = "https") ∨ u.Host = "")

theorem validateRegistry_bad (urlParse : String → Option ParsedURL)
    (url : String) (h : BadURL urlParse url) :
    ∃ msg, ConfigService.ValidateRegistryURL urlParse url =
      some (.validation "registry" url msg) := by
  unfold ConfigService.ValidateRegistryURL
  by_cases he : url = ""
  · exact ⟨_, by rw [if_pos he]⟩
  rw [if_neg he]
  rcases h with rfl | hnone | ⟨u, hu, hbad⟩
  · exact absurd rfl he
  · rw [hnone]
    exact ⟨_, rfl⟩
  · simp only [hu]
    rcases hbad with hsch | hhost
    · have hs : u.Scheme ≠ "http" ∧ u.Scheme ≠ "https" :=
        ⟨fun h1 => hsch (Or.inl h1), fun h2 => hsch (Or.inr h2)⟩
      rw [if_pos hs]
      exact ⟨_, rfl⟩
    · by_cases hs : u.Scheme ≠ "http" ∧ u.Scheme ≠ "https"
      · rw [if_pos hs]
        exact ⟨_, rfl⟩
      · rw [if_neg hs, if_pos hhost]
        exact ⟨_, rfl⟩

theorem validateProxy_bad (urlParse : String → Option ParsedURL)
    (url : String) (hne : url ≠ "") (h : BadURL urlParse url) :
    ∃ msg, ConfigService.ValidateProxyURL urlParse url =
      some (.validation "proxy" url msg) := by
  unfold ConfigService.ValidateProxyURL
  rw [if_neg hne]
  rcases h with rfl | hnone | ⟨u, hu, hbad⟩
  · exact absurd rfl hne
  · rw [hnone]
    exact ⟨_, rfl⟩
  · simp only [hu]
    rcases hbad with hsch | hhost
    · have hs : u.Scheme ≠ "http" ∧ u.Scheme ≠ "https" :=
        ⟨fun h1 => hsch (Or.inl h1), fun h2 => hsch (Or.inr h2)⟩
      rw [if_pos hs]
      exact ⟨_, rfl⟩
    · by_cases hs : u.Scheme ≠ "http" ∧ u.Scheme ≠ "https"
      · rw [if_pos hs]
        exact ⟨_, rfl⟩
      · rw [if_neg hs, if_pos hhost]
        exact ⟨_, rfl⟩

theorem flatMap_singleton_name :
    ∀ bs : List Backend, (bs.flatMap fun b => [b.Name]) = bs.map (fun b => b.Name) := by
  intro bs
  induction bs with
  | nil => rfl
  | cons b t ih => simp [ih]

theorem GetManager_error {factory : List Backend} {name : String} {e : Err}
    (h : ManagerFactory.GetManager factory name = .error e) :
    e = .managerNotFound name := by
  unfold ManagerFactory.GetManager at h
  revert h
  cases factory.find? (fun b => b.Name == name) with
  | none =>
    intro h
    rw [Except.error.injEq] at h
    exact h.symm
  | some b => intro h; cases h

/-- C6: URL validation happens before any backend I/O.  Under any of the
four rejection conditions, SetRegistryForAll and SetRegistry return a
ValidationError with an empty invocation trace (no backend setter runs);
for a non-empty URL the same holds for SetProxyForAll and SetProxy; the
empty proxy URL is never rejected by validation and is forwarded to every
available backend by SetProxyForAll. -/
theorem C6_validation_before_io (urlParse : String → Option ParsedURL)
    (factory : List Backend) (name url : String) (hbad : BadURL urlParse url) :
    (∃ m, (ConfigService.SetRegistryForAll urlParse factory url).1 =
      some (.validation "registry" url m))
  ∧ (ConfigService.SetRegistryForAll urlParse factory url).2.1 = []
  ∧ (∃ m, (ConfigService.SetRegistry urlParse factory name url).1 =
      some (.validation "registry" url m))
  ∧ (ConfigService.SetRegistry urlParse factory name url).2 = []
  ∧ (url ≠ "" →
      (∃ m, (ConfigService.SetProxyForAll urlParse factory url).1 =
        some (.validation "proxy" url m))
    ∧ (ConfigService.SetProxyForAll urlParse factory url).2.1 = []
    ∧ (∃ m, (ConfigService.SetProxy urlParse factory name url).1 =
        some (.validation "proxy" url m))
    ∧ (ConfigService.SetProxy urlParse factory name url).2 = [])
  ∧ (ConfigService.SetProxyForAll urlParse factory "").2.1 =
      ManagerFactory.GetAvailableManagerNames factory
  ∧ (∀ f v m, (ConfigService.SetProxy urlParse factory name "").1 ≠
      some (.validation f v m)) := by
  obtain ⟨msg, hv⟩ := validateRegistry_bad urlParse url hbad
  refine ⟨?_, ?_, ?_, ?_, ?_, ?_, ?_⟩
  · exact ⟨msg, by simp only [ConfigService.SetRegistryForAll, hv]⟩
  · simp only [ConfigService.SetRegistryForAll, hv]
  · exact ⟨msg, by simp only [ConfigService.SetRegistry, hv]⟩
  · simp only [ConfigService.SetRegistry, hv]
  · intro hne
    obtain ⟨msg2, hp⟩ := validateProxy_bad urlParse url hne hbad
    refine ⟨⟨msg2, ?_⟩, ?_, ⟨msg2, ?_⟩, ?_⟩
    · simp only [ConfigService.SetProxyForAll, hp]
    · simp only [ConfigService.SetProxyForAll, hp]
    · simp only [ConfigService.SetProxy, hp]
    · simp only [ConfigService.SetProxy, hp]
  · have hok : ConfigService.ValidateProxyURL urlParse "" = none := rfl
    simp only [ConfigService.SetProxyForAll, hok, collect_foldl,
      ManagerFactory.GetAvailableManagerNames, List.nil_append]
    exact flatMap_singleton_name _
  · intro f v m hc
    unfold ConfigService.SetProxy at hc
    rw [show ConfigService.ValidateProxyURL urlParse "" = none from rfl] at hc
    revert hc
    cases hg : ManagerFactory.GetManager factory name with
    | error e =>
      have he := GetManager_error hg
      subst he
      simp
    | ok b =>
      by_cases hav : b.IsAvailable
      · simp only [if_pos hav]
        cases hsp : b.SetProxy "" <;> simp
      · simp [hav]

/-- urlParseDemo parses exactly one URL, with scheme ftp and host host. -/
def urlParseDemo : String → Option ParsedURL :=
  fun s => if s = "ftp://host" then some ⟨"ftp", "host"⟩ else none

/-- C6 witness: an ftp URL is rejected by both registry setters with an
empty invocation trace, and the empty proxy URL is forwarded to both
available backends. -/
theorem C6_witness :
    BadURL urlParseDemo "ftp://host"
  ∧ (∃ m, (ConfigService.SetRegistryForAll urlParseDemo [npmB, yarnB, pnpmB] "ftp://host").1
      = some (.validation "registry" "ftp://host" m))
  ∧ (ConfigService.SetRegistryForAll urlParseDemo [npmB, yarnB, pnpmB] "ftp://host").2.1 = []
  ∧ (ConfigService.SetRegistry urlParseDemo [npmB, yarnB, pnpmB] "npm" "ftp://host").2 = []
  ∧ (ConfigService.SetProxyForAll urlParseDemo [npmB, yarnB, pnpmB] "").2.1 = ["npm", "yarn"] := by
  have hbad : BadURL urlParseDemo "ftp://host" :=
    Or.inr (Or.inr ⟨⟨"ftp", "host"⟩, rfl, Or.inl (by decide)⟩)
  have h := C6_validation_before_io urlParseDemo [npmB, yarnB, pnpmB] "npm" "ftp://host" hbad
  exact ⟨hbad, h.1, h.2.1, h.2.2.2.1, h.2.2.2.2.2.1.trans (by rfl)⟩

/-! Lemmas for claim C4 about the merge of per-backend project reports. -/

/-- firstLock is the first non-empty lock-file path of a list, or the empty
string when none is non-empty. -/
def firstLock (ls : List String) : String :=
  ((ls.filter (fun s => s ≠ "")).headD "")

/-- mergeGroup folds the records of one path group into the single stored
record, starting from an optional already-stored record. -/
def mergeGroup (o : Option Project) (g : List Project) : Option Project :=
  g.foldl (fun o p =>
    match o with
    | none => some p
    | some q => some (ProjectService.mergeTwo q p)) o

theorem mergeTwo_Path (q p : Project) :
    (ProjectService.mergeTwo q p).Path = q.Path := rfl

theorem mergeStep_map_path (acc : List Project) (p : Project) :
    (ProjectService.mergeStep acc p).map Project.Path =
      if acc.any (fun q => q.Path == p.Path) then acc.map Project.Path
      else acc.map Project.Path ++ [p.Path] := by
  by_cases hany : acc.any (fun q => q.Path == p.Path)
  · simp only [ProjectService.mergeStep, if_pos hany, List.map_map]
    apply List.map_congr_left
    intro q _
    by_cases hqp : (q.Path == p.Path)
    · simp [Function.comp, hqp, mergeTwo_Path]
    · simp [Function.comp, hqp]
  · simp only [ProjectService.mergeStep, if_neg hany, List.map_append, List.map_cons,
      List.map_nil]

theorem mergeStep_nodup (acc : List Project) (p : Project)
    (h : (acc.map Project.Path).Nodup) :
    ((ProjectService.mergeStep acc p).map Project.Path).Nodup := by
  rw [mergeStep_map_path]
  by_cases hany : acc.any (fun q => q.Path == p.Path)
  · rw [if_pos hany]
    exact h
  · rw [if_neg hany]
    have hnot : p.Path ∉ acc.map Project.Path := by
      intro hmem
      apply hany
      rw [List.any_eq_true]
      obtain ⟨q, hq, hpath⟩ := List.mem_map.mp hmem
      exact ⟨q, hq, by simp [hpath]⟩
    rw [(List.perm_append_singleton p.Path (acc.map Project.Path)).nodup_iff]
    exact List.nodup_cons.mpr ⟨hnot, h⟩

theorem filter_path_singleton (path : String) :
    ∀ acc : List Project, (acc.map Project.Path).Nodup →
      acc.filter (fun r => r.Path == path) =
        ((acc.filter (fun r => r.Path == path)).head?).toList := by
  intro acc
  induction acc with
  | nil => intro _; rfl
  | cons a t ih =>
    intro hnd
    simp only [List.map_cons, List.nodup_cons] at hnd
    obtain ⟨hna, hnt⟩ := hnd
    rw [List.filter_cons]
    by_cases ha : (a.Path == path)
    · rw [if_pos ha]
      have ht : t.filter (fun r => r.Path == path) = [] := by
        rw [List.filter_eq_nil_iff]
        intro q hq hcond
        apply hna
        have h1 : q.Path = path := by simpa using hcond
        have h2 : a.Path = path := by simpa using ha
        rw [h2, ← h1]
        exact List.mem_map_of_mem _ hq
      rw [ht]
      rfl
    · rw [if_neg ha]
      exact ih hnt

theorem map_update_filter_eq (p : Project) (path : String) (hp : p.Path = path) :
    ∀ acc : List Project,
      ((acc.map (fun q => if q.Path == p.Path then ProjectService.mergeTwo q p else q)).filter
          (fun r => r.Path == path))
        = (acc.filter (fun r => r.Path == path)).map
            (fun q => ProjectService.mergeTwo q p) := by
  intro acc
  induction acc with
  | nil => rfl
  | cons a t ih =>
    simp only [List.map_cons, List.filter_cons]
    by_cases ha : a.Path = path
    · have h1 : (a.Path == p.Path) = true := by simp [ha, hp]
      have h2 : ((ProjectService.mergeTwo a p).Path == path) = true := by
        simp [mergeTwo_Path, ha]
      have h3 : (a.Path == path) = true := by simp [ha]
      simp only [h1, if_true, h2, h3, List.filter_cons, List.map_cons]
      rw [ih]
    · have h1 : (a.Path == p.Path) = false := by
        rw [beq_eq_false_iff_ne, hp]
        exact ha
      have h2 : (a.Path == path) = false := by
        rw [beq_eq_false_iff_ne]
        exact ha
      simp only [h1, Bool.false_eq_true, if_false, h2, List.filter_cons]
      rw [ih]

theorem map_update_filter_ne (p : Project) (path : String) (hp : p.Path ≠ path) :
    ∀ acc : List Project,
      ((acc.map (fun q => if q.Path == p.Path then ProjectService.mergeTwo q p else q)).filter
          (fun r => r.Path == path))
        = acc.filter (fun r => r.Path == path) := by
  intro acc
  induction acc with
  | nil => rfl
  | cons a t ih =>
    simp only [List.map_cons, List.filter_cons]
    by_cases haP : (a.Path == p.Path)
    · have ha : a.Path = p.Path := by simpa using haP
      have h2 : ((ProjectService.mergeTwo a p).Path == path) = false := by
        rw [beq_eq_false_iff_ne, mergeTwo_Path, ha]
        exact hp
      have h3 : (a.Path == path) = false := by
        rw [beq_eq_false_iff_ne, ha]
        exact hp
      simp only [haP, if_true, h2, h3, Bool.false_eq_true, if_false]
      exact ih
    · simp only [haP, Bool.false_eq_true, if_false, List.filter_cons]
      rw [ih]

theorem mergeGroup_some :
    ∀ (t : List Project) (q : Project),
      mergeGroup (some q) t = some (t.foldl ProjectService.mergeTwo q) := by
  intro t
  induction t with
  | nil => intro q; rfl
  | cons p t ih => intro q; exact ih (ProjectService.mergeTwo q p)

theorem mergeGroup_none_cons (h : Project) (t : List Project) :
    mergeGroup none (h :: t) = some (t.foldl ProjectService.mergeTwo h) :=
  mergeGroup_some t h

theorem mergeAux_filter (path : String) :
    ∀ (ps acc : List Project), (acc.map Project.Path).Nodup →
      (ps.foldl ProjectService.mergeStep acc).filter (fun r => r.Path == path)
        = (mergeGroup ((acc.filter (fun r => r.Path == path)).head?)
            (ps.filter (fun r => r.Path == path))).toList := by
  intro ps
  induction ps with
  | nil =>
    intro acc hnd
    rw [List.foldl_nil, List.filter_nil]
    exact filter_path_singleton path acc hnd
  | cons p ps ih =>
    intro acc hnd
    rw [List.foldl_cons, List.filter_cons]
    have hstep : ∀ o g, mergeGroup o (p :: g)
        = mergeGroup (some (match o with
            | none => p
            | some q => ProjectService.mergeTwo q p)) g := by
      intro o g
      cases o <;> rfl
    have key : ((ProjectService.mergeStep acc p).filter (fun r => r.Path == path)).head?
        = if (p.Path == path)
          then some (match (acc.filter (fun r => r.Path == path)).head? with
            | none => p
            | some q => ProjectService.mergeTwo q p)
          else (acc.filter (fun r => r.Path == path)).head? := by
      by_cases hp : (p.Path == path)
      · have hpe : p.Path = path := by simpa using hp
        rw [if_pos hp]
        by_cases hany : acc.any (fun q => q.Path == p.Path)
        · have hms : ProjectService.mergeStep acc p
              = acc.map (fun q => if q.Path == p.Path then ProjectService.mergeTwo q p else q) := by
            simp only [ProjectService.mergeStep, if_pos hany]
          rw [hms, map_update_filter_eq p path hpe acc]
          have hne : acc.filter (fun r => r.Path == path) ≠ [] := by
            rw [List.any_eq_true] at hany
            obtain ⟨q, hq, hqp⟩ := hany
            have hqpath : (q.Path == path) = true := by
              have : q.Path = p.Path := by simpa using hqp
              simp [this, hpe]
            intro hnil
            rw [List.filter_eq_nil_iff] at hnil
            exact hnil q hq hqpath
          cases hfe : acc.filter (fun r => r.Path == path) with
          | nil => exact absurd hfe hne
          | cons q0 rest => rfl
        · have hms : ProjectService.mergeStep acc p = acc ++ [p] := by
            simp only [ProjectService.mergeStep, if_neg hany]
          have hfnil : acc.filter (fun r => r.Path == path) = [] := by
            rw [List.filter_eq_nil_iff]
            intro q hq hqp
            apply hany
            rw [List.any_eq_true]
            have : q.Path = path := by simpa using hqp
            exact ⟨q, hq, by simp [this, hpe]⟩
          rw [hms, List.filter_append, hfnil, List.filter_cons, if_pos hp, List.filter_nil]
          rfl
      · rw [if_neg hp]
        have hpne : p.Path ≠ path := by simpa using hp
        by_cases hany : acc.any (fun q => q.Path == p.Path)
        · have hms : ProjectService.mergeStep acc p
              = acc.map (fun q => if q.Path == p.Path then ProjectService.mergeTwo q p else q) := by
            simp only [ProjectService.mergeStep, if_pos hany]
          rw [hms, map_update_filter_ne p path hpne acc]
        · have hms : ProjectService.mergeStep acc p = acc ++ [p] := by
            simp only [ProjectService.mergeStep, if_neg hany]
          rw [hms, List.filter_append, List.filter_cons, if_neg hp, List.filter_nil,
            List.append_nil]
    rw [ih (ProjectService.mergeStep acc p) (mergeStep_nodup acc p hnd), key]
    by_cases hp : (p.Path == path)
    · rw [if_pos hp, if_pos hp, hstep]
    · rw [if_neg hp, if_neg hp]

theorem mergeProjects_filter (ps : List Project) (path : String) :
    (ProjectService.mergeProjects ps).filter (fun r => r.Path == path)
      = (mergeGroup none (ps.filter (fun r => r.Path == path))).toList := by
  have h := mergeAux_filter path ps [] (by simp)
  simpa [ProjectService.mergeProjects] using h

theorem foldl_mergeTwo_path :
    ∀ (t : List Project) (h : Project),
      (t.foldl ProjectService.mergeTwo h).Path = h.Path := by
  intro t
  induction t with
  | nil => intro h; rfl
  | cons p t ih => intro h; rw [List.foldl_cons, ih, mergeTwo_Path]

theorem mergeManagers_mem :
    ∀ (ms ex : List String) (m : String),
      m ∈ ProjectService.mergeManagers ex ms ↔ m ∈ ex ∨ m ∈ ms := by
  intro ms
  induction ms with
  | nil => intro ex m; simp [ProjectService.mergeManagers]
  | cons a ms ih =>
    intro ex m
    have hm : ProjectService.mergeManagers ex (a :: ms)
        = ProjectService.mergeManagers (if a ∈ ex then ex else ex ++ [a]) ms := by
      simp only [ProjectService.mergeManagers, List.foldl_cons]
    rw [hm, ih]
    by_cases ha : a ∈ ex
    · rw [if_pos ha]
      constructor
      · rintro (h | h)
        · exact Or.inl h
        · exact Or.inr (List.mem_cons_of_mem _ h)
      · rintro (h | h)
        · exact Or.inl h
        · rcases List.mem_cons.mp h with rfl | h2
          · exact Or.inl ha
          · exact Or.inr h2
    · rw [if_neg ha]
      simp only [List.mem_append, List.mem_singleton, List.mem_cons]
      tauto

theorem mergeManagers_nodup :
    ∀ (ms ex : List String), ex.Nodup → (ProjectService.mergeManagers ex ms).Nodup := by
  intro ms
  induction ms with
  | nil => intro ex h; exact h
  | cons a ms ih =>
    intro ex h
    have hm : ProjectService.mergeManagers ex (a :: ms)
        = ProjectService.mergeManagers (if a ∈ ex then ex else ex ++ [a]) ms := by
      simp only [ProjectService.mergeManagers, List.foldl_cons]
    rw [hm]
    apply ih
    by_cases ha : a ∈ ex
    · rw [if_pos ha]
      exact h
    · rw [if_neg ha]
      rw [(List.perm_append_singleton a ex).nodup_iff]
      exact List.nodup_cons.mpr ⟨ha, h⟩

theorem foldl_mergeTwo_managers_mem :
    ∀ (t : List Project) (h : Project) (m : String),
      m ∈ (t.foldl ProjectService.mergeTwo h).Managers
        ↔ m ∈ h.Managers ∨ ∃ p ∈ t, m ∈ p.Managers := by
  intro t
  induction t with
  | nil => intro h m; simp
  | cons p t ih =>
    intro h m
    rw [List.foldl_cons, ih]
    have hmt : (ProjectService.mergeTwo h p).Managers
        = ProjectService.mergeManagers h.Managers p.Managers := rfl
    rw [hmt, mergeManagers_mem]
    simp only [List.mem_cons]
    constructor
    · rintro ((h1 | h1) | ⟨q, hq, hmq⟩)
      · exact Or.inl h1
      · exact Or.inr ⟨p, Or.inl rfl, h1⟩
      · exact Or.inr ⟨q, Or.inr hq, hmq⟩
    · rintro (h1 | ⟨q, (rfl | hq), hmq⟩)
      · exact Or.inl (Or.inl h1)
      · exact Or.inl (Or.inr hmq)
      · exact Or.inr ⟨q, hq, hmq⟩

theorem foldl_mergeTwo_managers_nodup :
    ∀ (t : List Project) (h : Project), h.Managers.Nodup →
      (t.foldl ProjectService.mergeTwo h).Managers.Nodup := by
  intro t
  induction t with
  | nil => intro h hn; exact hn
  | cons p t ih =>
    intro h hn
    rw [List.foldl_cons]
    exact ih _ (mergeManagers_nodup _ _ hn)

theorem firstLock_cons_ne (s : String) (ls : List String) (h : s ≠ "") :
    firstLock (s :: ls) = s := by
  simp [firstLock, List.filter_cons, h]

theorem firstLock_cons_empty (ls : List String) :
    firstLock ("" :: ls) = firstLock ls := by
  simp [firstLock, List.filter_cons]

theorem foldl_mergeTwo_lock :
    ∀ (t : List Project) (h : Project),
      (t.foldl ProjectService.mergeTwo h).LockFile
        = firstLock ((h :: t).map Project.LockFile) := by
  intro t
  induction t with
  | nil =>
    intro h
    by_cases hl : h.LockFile = ""
    · rw [List.map_cons, List.map_nil, hl, firstLock_cons_empty]
      exact hl
    · rw [List.map_cons, List.map_nil, firstLock_cons_ne _ _ hl]
      rfl
  | cons p t ih =>
    intro h
    rw [List.foldl_cons, ih]
    have hml : (ProjectService.mergeTwo h p).LockFile
        = if h.LockFile = "" ∧ p.LockFile ≠ "" then p.LockFile else h.LockFile := rfl
    by_cases hl : h.LockFile = ""
    · by_cases hpl : p.LockFile = ""
      · have : (ProjectService.mergeTwo h p).LockFile = h.LockFile := by
          rw [hml, if_neg]
          rintro ⟨-, hne⟩
          exact hne hpl
        rw [List.map_cons, this, hl, firstLock_cons_empty, List.map_cons, List.map_cons, hl,
          firstLock_cons_empty, hpl, firstLock_cons_empty]
      · have : (ProjectService.mergeTwo h p).LockFile = p.LockFile := by
          rw [hml, if_pos ⟨hl, hpl⟩]
        rw [List.map_cons, this, firstLock_cons_ne _ _ hpl, List.map_cons, List.map_cons, hl,
          firstLock_cons_empty, firstLock_cons_ne _ _ hpl]
    · have : (ProjectService.mergeTwo h p).LockFile = h.LockFile := by
        rw [hml, if_neg]
        rintro ⟨he, -⟩
        exact hl he
      rw [List.map_cons, this, firstLock_cons_ne _ _ hl, List.map_cons,
        firstLock_cons_ne _ _ hl]

theorem mergeAux_paths_subset :
    ∀ (ps acc : List Project) (r : Project),
      r ∈ ps.foldl ProjectService.mergeStep acc →
      r.Path ∈ acc.map Project.Path ∨ r.Path ∈ ps.map Project.Path := by
  intro ps
  induction ps with
  | nil =>
    intro acc r hr
    exact Or.inl (List.mem_map_of_mem _ hr)
  | cons p ps ih =>
    intro acc r hr
    rw [List.foldl_cons] at hr
    rcases ih (ProjectService.mergeStep acc p) r hr with h1 | h1
    · rw [mergeStep_map_path] at h1
      by_cases hany : acc.any (fun q => q.Path == p.Path)
      · rw [if_pos hany] at h1
        exact Or.inl h1
      · rw [if_neg hany] at h1
        rcases List.mem_append.mp h1 with h2 | h2
        · exact Or.inl h2
        · rw [List.mem_singleton] at h2
          exact Or.inr (by rw [List.map_cons, h2]; exact List.mem_cons_self _ _)
    · exact Or.inr (List.mem_cons_of_mem _ h1)

/-- C4: project records reported for the same path are merged into exactly
one ScanProjects record whose manager set is the duplicate-free union of
the contributing records and whose lock-file path is the first-seen
non-empty one (the stored lock file is replaced only while empty); records
for distinct paths are never merged, since every returned record keeps the
path of some contributing record and each present path yields exactly one
record. -/
theorem C4_merge_invariant (fs : FS) (factory : List Backend)
    (rootPath expandedPath : String) (path : String)
    (hroot : rootPath ≠ "")
    (hexp : fs.expandPath rootPath = some expandedPath)
    (hex : fs.pathExists expandedPath = true)
    (hdir : fs.isDir expandedPath = true)
    (hnd : ∀ p ∈ (ManagerFactory.GetAvailableManagers factory).flatMap
      (ProjectService.projFetch expandedPath), p.Managers.Nodup)
    (hmem : path ∈ ((ManagerFactory.GetAvailableManagers factory).flatMap
      (ProjectService.projFetch expandedPath)).map Project.Path) :
    ∃ q, (okList (ProjectService.ScanProjects fs factory rootPath)).filter
        (fun r => r.Path == path) = [q]
      ∧ (∀ m, m ∈ q.Managers ↔
          ∃ p ∈ (ManagerFactory.GetAvailableManagers factory).flatMap
            (ProjectService.projFetch expandedPath), p.Path = path ∧ m ∈ p.Managers)
      ∧ q.Managers.Nodup
      ∧ q.LockFile = firstLock
          ((((ManagerFactory.GetAvailableManagers factory).flatMap
            (ProjectService.projFetch expandedPath)).filter
              (fun p => p.Path == path)).map Project.LockFile)
      ∧ ∀ r ∈ okList (ProjectService.ScanProjects fs factory rootPath),
          r.Path ∈ ((ManagerFactory.GetAvailableManagers factory).flatMap
            (ProjectService.projFetch expandedPath)).map Project.Path := by
  have hscan : okList (ProjectService.ScanProjects fs factory rootPath)
      = sortOn (fun p => p.Path.data)
          (ProjectService.mergeProjects
            ((ManagerFactory.GetAvailableManagers factory).flatMap
              (ProjectService.projFetch expandedPath))) := by
    rw [ScanProjects_eq fs factory rootPath expandedPath hroot hexp hex hdir]
    rfl
  set allP := (ManagerFactory.GetAvailableManagers factory).flatMap
    (ProjectService.projFetch expandedPath) with hallP
  have hgrp : allP.filter (fun p => p.Path == path) ≠ [] := by
    obtain ⟨p, hp, hpp⟩ := List.mem_map.mp hmem
    intro hnil
    rw [List.filter_eq_nil_iff] at hnil
    exact hnil p hp (by simp [hpp])
  cases hg : allP.filter (fun p => p.Path == path) with
  | nil => exact absurd hg hgrp
  | cons ghead gtail =>
    have hmerged : (ProjectService.mergeProjects allP).filter (fun r => r.Path == path)
        = [gtail.foldl ProjectService.mergeTwo ghead] := by
      rw [mergeProjects_filter, hg, mergeGroup_none_cons]
      rfl
    have hsorted : (okList (ProjectService.ScanProjects fs factory rootPath)).filter
        (fun r => r.Path == path) = [gtail.foldl ProjectService.mergeTwo ghead] := by
      rw [hscan]
      have hperm := (sortOn_perm (fun p : Project => p.Path.data)
        (ProjectService.mergeProjects allP)).filter (fun r => r.Path == path)
      rw [hmerged] at hperm
      exact List.perm_singleton.mp hperm
    have hheadmem : ghead ∈ allP ∧ (ghead.Path == path) = true := by
      have : ghead ∈ allP.filter (fun p => p.Path == path) := by
        rw [hg]
        exact List.mem_cons_self _ _
      exact List.mem_filter.mp this
    have hgroupiff : ∀ p, p ∈ allP ∧ p.Path = path ↔ p = ghead ∨ p ∈ gtail := by
      intro p
      constructor
      · intro ⟨h1, h2⟩
        have : p ∈ allP.filter (fun r => r.Path == path) :=
          List.mem_filter.mpr ⟨h1, by simp [h2]⟩
        rw [hg] at this
        exact List.mem_cons.mp this
      · intro h
        have : p ∈ allP.filter (fun r => r.Path == path) := by
          rw [hg]
          rcases h with rfl | h2
          · exact List.mem_cons_self _ _
          · exact List.mem_cons_of_mem _ h2
        obtain ⟨h1, h2⟩ := List.mem_filter.mp this
        exact ⟨h1, by simpa using h2⟩
    refine ⟨gtail.foldl ProjectService.mergeTwo ghead, hsorted, ?_, ?_, ?_, ?_⟩
    · intro m
      rw [foldl_mergeTwo_managers_mem]
      constructor
      · rintro (h1 | ⟨p, hp, hmp⟩)
        · refine ⟨ghead, hheadmem.1, by simpa using hheadmem.2, h1⟩
        · obtain ⟨hp1, hp2⟩ := (hgroupiff p).mpr (Or.inr hp)
          exact ⟨p, hp1, hp2, hmp⟩
      · rintro ⟨p, hp, hpp, hmp⟩
        rcases (hgroupiff p).mp ⟨hp, hpp⟩ with rfl | h2
        · exact Or.inl hmp
        · exact Or.inr ⟨p, h2, hmp⟩
    · exact foldl_mergeTwo_managers_nodup _ _ (hnd ghead hheadmem.1)
    · rw [foldl_mergeTwo_lock]
    · intro r hr
      rw [hscan] at hr
      have hr2 : r ∈ ProjectService.mergeProjects allP :=
        ((sortOn_perm _ _).mem_iff).mp hr
      have := mergeAux_paths_subset allP [] r
        (by simpa [ProjectService.mergeProjects] using hr2)
      rcases this with h1 | h1
      · simp at h1
      · exact h1

/-- C4 witness: npm and yarn both report path /a; the scan returns one
record for /a with manager set npm, yarn and the yarn lock file. -/
theorem C4_witness :
    (∀ p ∈ (ManagerFactory.GetAvailableManagers [npmB, yarnB]).flatMap
      (ProjectService.projFetch "/root"), p.Managers.Nodup)
  ∧ ("/a" ∈ ((ManagerFactory.GetAvailableManagers [npmB, yarnB]).flatMap
      (ProjectService.projFetch "/root")).map Project.Path)
  ∧ ∃ q, (okList (ProjectService.ScanProjects demoFS [npmB, yarnB] "/root")).filter
        (fun r => r.Path == "/a") = [q]
      ∧ q.Managers.Nodup ∧ q.LockFile = "/a/yarn.lock" := by
  have hnd : ∀ p ∈ (ManagerFactory.GetAvailableManagers [npmB, yarnB]).flatMap
      (ProjectService.projFetch "/root"), p.Managers.Nodup := by decide
  have hmem : "/a" ∈ ((ManagerFactory.GetAvailableManagers [npmB, yarnB]).flatMap
      (ProjectService.projFetch "/root")).map Project.Path := by decide
  obtain ⟨q, h1, h2, h3, h4, h5⟩ := C4_merge_invariant demoFS [npmB, yarnB]
    "/root" "/root" "/a" (by decide) rfl rfl rfl hnd hmem
  exact ⟨hnd, hmem, q, h1, h3, h4.trans (by rfl)⟩

/-! Lemmas for claim C9 about the largest-cache computation. -/

/-- runningMax folds the maximum of the sizes over a floor value, mirroring
the strict-increase update of the GetCacheStats loop. -/
def runningMax (l : List CacheInfo) (s : Int) : Int :=
  l.foldl (fun a i => max a i.Size) s

/-- largestUpd is the largest-cache component of one GetCacheStats
iteration: update only on a strict size increase. -/
def largestUpd (p : Int × String) (i : CacheInfo) : Int × String :=
  if i.Size > p.1 then (i.Size, i.Manager) else p

/-- okSummary projects the summary out of the always-ok result. -/
def okSummary (r : Except Err CacheService.CacheSummary) : CacheService.CacheSummary :=
  match r with
  | .ok s => s
  | .error _ => ⟨0, 0, 0, "", 0, []⟩

theorem cacheStats_largest :
    ∀ (l : List CacheInfo) (st : CacheService.CacheStats),
      ((l.foldl CacheService.cacheStatsStep st).LargestCache.Size,
       (l.foldl CacheService.cacheStatsStep st).LargestCacheManager)
        = l.foldl largestUpd (st.LargestCache.Size, st.LargestCacheManager) := by
  intro l
  induction l with
  | nil => intro st; rfl
  | cons i t ih =>
    intro st
    have hstep : ((CacheService.cacheStatsStep st i).LargestCache.Size,
        (CacheService.cacheStatsStep st i).LargestCacheManager)
        = largestUpd (st.LargestCache.Size, st.LargestCacheManager) i := by
      unfold CacheService.cacheStatsStep largestUpd
      by_cases h : i.Size > st.LargestCache.Size
      · simp [h, CacheService.statsOf]
      · simp [h]
    rw [List.foldl_cons, List.foldl_cons, ih (CacheService.cacheStatsStep st i), hstep]

theorem runningMax_base_le :
    ∀ (l : List CacheInfo) (s : Int), s ≤ runningMax l s := by
  intro l
  induction l with
  | nil => intro s; exact le_refl s
  | cons i t ih =>
    intro s
    calc s ≤ max s i.Size := le_max_left _ _
    _ ≤ runningMax t (max s i.Size) := ih _

theorem runningMax_mem_le :
    ∀ (l : List CacheInfo) (s : Int) (j : CacheInfo),
      j ∈ l → j.Size ≤ runningMax l s := by
  intro l
  induction l with
  | nil => intro s j hj; cases hj
  | cons i t ih =>
    intro s j hj
    rcases List.mem_cons.mp hj with rfl | hj2
    · calc j.Size ≤ max s j.Size := le_max_right _ _
      _ ≤ runningMax t (max s j.Size) := runningMax_base_le _ _
    · exact ih _ j hj2

theorem runningMax_const :
    ∀ (l : List CacheInfo) (s : Int), (∀ i ∈ l, i.Size ≤ s) → runningMax l s = s := by
  intro l
  induction l with
  | nil => intro s _; rfl
  | cons i t ih =>
    intro s h
    have h1 : max s i.Size = s := max_eq_left (h i (List.mem_cons_self _ _))
    show runningMax t (max s i.Size) = s
    rw [h1]
    exact ih s (fun j hj => h j (List.mem_cons_of_mem _ hj))

theorem largestUpd_const :
    ∀ (l : List CacheInfo) (s : Int) (m : String),
      (∀ i ∈ l, i.Size ≤ s) → l.foldl largestUpd (s, m) = (s, m) := by
  intro l
  induction l with
  | nil => intro s m _; rfl
  | cons i t ih =>
    intro s m h
    rw [List.foldl_cons]
    have h1 : largestUpd (s, m) i = (s, m) := by
      unfold largestUpd
      rw [if_neg (not_lt.mpr (h i (List.mem_cons_self _ _)))]
    rw [h1]
    exact ih s m (fun j hj => h j (List.mem_cons_of_mem _ hj))

theorem largestUpd_spec :
    ∀ (l : List CacheInfo) (s : Int) (m : String),
      (∃ i ∈ l, s < i.Size) →
      ∃ w, l.find? (fun i => i.Size == runningMax l s) = some w
        ∧ l.foldl largestUpd (s, m) = (runningMax l s, w.Manager) := by
  intro l
  induction l with
  | nil => intro s m h; exact absurd h (by simp)
  | cons i t ih =>
    intro s m hex
    have hrm : runningMax (i :: t) s = runningMax t (max s i.Size) := rfl
    by_cases hi : s < i.Size
    · have hupd : largestUpd (s, m) i = (i.Size, i.Manager) := by
        unfold largestUpd
        rw [if_pos hi]
      have hmax : max s i.Size = i.Size := max_eq_right (le_of_lt hi)
      by_cases ht : ∃ j ∈ t, i.Size < j.Size
      · obtain ⟨w, hw1, hw2⟩ := ih i.Size i.Manager ht
        refine ⟨w, ?_, ?_⟩
        · have hlt : i.Size < runningMax t i.Size := by
            obtain ⟨j, hj, hjlt⟩ := ht
            exact lt_of_lt_of_le hjlt (runningMax_mem_le t i.Size j hj)
          have hne : (i.Size == runningMax (i :: t) s) = false := by
            rw [hrm, hmax]
            simp only [beq_eq_false_iff_ne, ne_eq]
            exact ne_of_lt hlt
          simp only [List.find?_cons, hne]
          rw [hrm, hmax]
          exact hw1
        · rw [List.foldl_cons, hupd, hrm, hmax]
          exact hw2
      · push_neg at ht
        have hrc : runningMax t i.Size = i.Size := runningMax_const t i.Size ht
        refine ⟨i, ?_, ?_⟩
        · have heq : (i.Size == runningMax (i :: t) s) = true := by
            rw [hrm, hmax, hrc]
            exact beq_self_eq_true _
          simp only [List.find?_cons, heq]
        · rw [List.foldl_cons, hupd, hrm, hmax, hrc]
          exact largestUpd_const t i.Size i.Manager ht
    · have hupd : largestUpd (s, m) i = (s, m) := by
        unfold largestUpd
        rw [if_neg hi]
      have hmax : max s i.Size = s := max_eq_left (not_lt.mp hi)
      have hext : ∃ j ∈ t, s < j.Size := by
        obtain ⟨j, hj, hjs⟩ := hex
        rcases List.mem_cons.mp hj with rfl | hj2
        · exact absurd hjs hi
        · exact ⟨j, hj2, hjs⟩
      obtain ⟨w, hw1, hw2⟩ := ih s m hext
      refine ⟨w, ?_, ?_⟩
      · have hlt : i.Size < runningMax t s := by
          obtain ⟨j, hj, hjs⟩ := hext
          calc i.Size ≤ s := not_lt.mp hi
          _ < j.Size := hjs
          _ ≤ runningMax t s := runningMax_mem_le t s j hj
        have hne : (i.Size == runningMax (i :: t) s) = false := by
          rw [hrm, hmax]
          simp only [beq_eq_false_iff_ne, ne_eq]
          exact ne_of_lt hlt
        simp only [List.find?_cons, hne]
        rw [hrm, hmax]
        exact hw1
      · rw [List.foldl_cons, hupd, hrm, hmax]
        exact hw2

/-- zeroB is an available backend whose cache has size zero. -/
def zeroB : Backend :=
  ⟨"npm", true, .ok ⟨"npm", "/c", 0, 0, 0⟩, none, fun _ => .ok [], .ok [],
   .ok configNpm, fun _ => none, fun _ => none, fun _ => .ok []⟩

/-- C9 counterexample: with one cache record of size zero, the cache-info
list is non-empty, its maximal size 0 is attained by manager npm (the
alphabetically first and only entry), yet GetCacheSummary reports the empty
string as largestCacheManager because the loop updates only on a strict
size increase over the zero-valued initial stats. -/
theorem C9_counterexample :
    okList (CacheService.GetAllCacheInfo [zeroB])
      = [⟨"npm", "/c", 0, 0, 0⟩]
  ∧ CacheService.GetCacheSummary [zeroB]
      = Except.ok ⟨0, 0, 1, "", 0, ["npm"]⟩
  ∧ ("" : String) ≠ "npm" :=
  ⟨rfl, rfl, by decide⟩

/-- C9 (amended): largestCacheSize and largestCacheManager are a running
maximum with strict-increase update over the name-sorted GetAllCacheInfo
result, starting from size 0 and the empty manager name.  Whenever some
cache reports a strictly positive size, largestCacheSize is the maximal
size and largestCacheManager is the first manager in the name-sorted list
attaining it (the alphabetically first, with first-seen tie-break); when
every size is at most 0, the summary keeps size 0 and an empty manager
name. -/
theorem C9_amended_largest (factory : List Backend) :
    CacheService.GetCacheSummary factory
      = Except.ok (okSummary (CacheService.GetCacheSummary factory))
  ∧ ((∃ i ∈ okList (CacheService.GetAllCacheInfo factory), 0 < i.Size) →
      ∃ w, (okList (CacheService.GetAllCacheInfo factory)).find?
            (fun i => i.Size ==
              runningMax (okList (CacheService.GetAllCacheInfo factory)) 0)
          = some w
        ∧ (okSummary (CacheService.GetCacheSummary factory)).LargestCacheSize
            = runningMax (okList (CacheService.GetAllCacheInfo factory)) 0
        ∧ (okSummary (CacheService.GetCacheSummary factory)).LargestCacheManager
            = w.Manager)
  ∧ ((∀ i ∈ okList (CacheService.GetAllCacheInfo factory), i.Size ≤ 0) →
      (okSummary (CacheService.GetCacheSummary factory)).LargestCacheSize = 0
      ∧ (okSummary (CacheService.GetCacheSummary factory)).LargestCacheManager = "") := by
  have hsz : (okSummary (CacheService.GetCacheSummary factory)).LargestCacheSize
      = ((okList (CacheService.GetAllCacheInfo factory)).foldl
          CacheService.cacheStatsStep CacheService.initCacheStats).LargestCache.Size := rfl
  have hmg : (okSummary (CacheService.GetCacheSummary factory)).LargestCacheManager
      = ((okList (CacheService.GetAllCacheInfo factory)).foldl
          CacheService.cacheStatsStep CacheService.initCacheStats).LargestCacheManager := rfl
  have hpair := cacheStats_largest (okList (CacheService.GetAllCacheInfo factory))
    CacheService.initCacheStats
  refine ⟨rfl, ?_, ?_⟩
  · intro hex
    obtain ⟨w, hw1, hw2⟩ := largestUpd_spec
      (okList (CacheService.GetAllCacheInfo factory)) 0 "" hex
    refine ⟨w, hw1, ?_, ?_⟩
    · rw [hsz]
      have h1 := congrArg Prod.fst (hpair.trans hw2)
      simpa using h1
    · rw [hmg]
      have h2 := congrArg Prod.snd (hpair.trans hw2)
      simpa using h2
  · intro hall
    have hconst := largestUpd_const
      (okList (CacheService.GetAllCacheInfo factory)) 0 "" hall
    constructor
    · rw [hsz]
      have h1 := congrArg Prod.fst (hpair.trans hconst)
      simpa using h1
    · rw [hmg]
      have h2 := congrArg Prod.snd (hpair.trans hconst)
      simpa using h2

/-- C9 witness: with npm reporting size 7 and yarn failing, the summary
names npm with size 7, matching the first maximal entry of the sorted
list. -/
theorem C9_witness :
    (∃ i ∈ okList (CacheService.GetAllCacheInfo [npmB, yarnB]), 0 < i.Size)
  ∧ (okSummary (CacheService.GetCacheSummary [npmB, yarnB])).LargestCacheSize = 7
  ∧ (okSummary (CacheService.GetCacheSummary [npmB, yarnB])).LargestCacheManager = "npm" := by
  have hex : ∃ i ∈ okList (CacheService.GetAllCacheInfo [npmB, yarnB]), 0 < i.Size := by
    refine ⟨cacheNpm, ?_, by decide⟩
    rw [show okList (CacheService.GetAllCacheInfo [npmB, yarnB]) = [cacheNpm] from rfl]
    exact List.mem_cons_self _ _
  obtain ⟨w, hw1, hw2, hw3⟩ := (C9_amended_largest [npmB, yarnB]).2.1 hex
  have hfind : (okList (CacheService.GetAllCacheInfo [npmB, yarnB])).find?
      (fun i => i.Size ==
        runningMax (okList (CacheService.GetAllCacheInfo [npmB, yarnB])) 0)
      = some cacheNpm := rfl
  rw [hfind] at hw1
  cases hw1
  exact ⟨hex, hw2.trans (by rfl), hw3.trans (by rfl)⟩
